import Mathlib

/-!
Verification of the descriptive-statistics core of `pure_python_stats.py`
(column-type detection, numeric and categorical statistic bundles, grouping,
key canonicalization).  Python floats are idealized as exact rationals `ℚ`;
the non-finite float literals (`inf`, `nan`) fall outside this idealization
and are not part of the cell-value model.  Python `str.strip` is modeled on
the ASCII whitespace characters it strips.
-/

/-- A loaded CSV row: an ordered mapping from column name to raw cell text
(the shape produced by `csv.DictReader`). -/
abbrev Record := List (String × String)

/-- Cell access `row[col]` / `row.get(col, '')`.  Under the uniform-schema
precondition every looked-up column is present, so the `""` default is
exercised only by `Record.get(k, '')` in the grouping engine. -/
def getD (r : Record) (c : String) : String := (List.lookup c r).getD ""

/-- The ASCII whitespace characters stripped by Python `str.strip()` (space,
tab, newline, carriage return, vertical tab, form feed). -/
def isPySpace (c : Char) : Bool :=
  c = ' ' || c = '\t' || c = '\n' || c = '\r' || c = Char.ofNat 11 || c = Char.ofNat 12

/-- Strip leading and trailing whitespace from a character list. -/
def stripChars (cs : List Char) : List Char :=
  ((cs.dropWhile isPySpace).reverse.dropWhile isPySpace).reverse

/-- Model of Python `str.strip()`. -/
def pyStrip (s : String) : String := ⟨stripChars s.toList⟩

/-- Numeric value of a digit string (most significant digit first). -/
def digitsVal (ds : List Char) : ℕ :=
  ds.foldl (fun a c => 10 * a + (c.toNat - 48)) 0

/-- Parse the exponent suffix of a float literal: an optional sign followed
by at least one digit. -/
def parseExpPart (cs : List Char) : Option ℤ :=
  match cs with
  | [] => none
  | '+' :: t => if t ≠ [] ∧ t.all Char.isDigit then some (digitsVal t) else none
  | '-' :: t => if t ≠ [] ∧ t.all Char.isDigit then some (-(digitsVal t : ℤ)) else none
  | t => if t.all Char.isDigit then some (digitsVal t) else none

/-- Parse an unsigned finite Python float literal
`digits [. digits] [(e|E) exp]` or `. digits [(e|E) exp]`, yielding its
exact rational value. -/
def parseDec (cs : List Char) : Option ℚ :=
  let ip := cs.takeWhile Char.isDigit
  let r1 := cs.dropWhile Char.isDigit
  match r1 with
  | [] => if ip = [] then none else some (digitsVal ip : ℚ)
  | '.' :: r2 =>
    let fp := r2.takeWhile Char.isDigit
    let r3 := r2.dropWhile Char.isDigit
    if ip = [] ∧ fp = [] then none
    else
      let base : ℚ := (digitsVal ip : ℚ) + (digitsVal fp : ℚ) / 10 ^ fp.length
      match r3 with
      | [] => some base
      | 'e' :: r4 => (parseExpPart r4).map (fun ex => base * 10 ^ ex)
      | 'E' :: r4 => (parseExpPart r4).map (fun ex => base * 10 ^ ex)
      | _ => none
  | 'e' :: r4 =>
    if ip = [] then none
    else (parseExpPart r4).map (fun ex => (digitsVal ip : ℚ) * 10 ^ ex)
  | 'E' :: r4 =>
    if ip = [] then none
    else (parseExpPart r4).map (fun ex => (digitsVal ip : ℚ) * 10 ^ ex)
  | _ => none

/-- Scan the tail of a literal checking that every underscore sits directly
between two digits (`prev` is the character before the current position). -/
def usdGo (prev : Char) : List Char → Bool
  | [] => true
  | c :: t =>
    if c = '_' then
      match t with
      | [] => false
      | n :: t2 => prev.isDigit && n.isDigit && usdGo n t2
    else usdGo c t

/-- Python number literals may contain underscores, but only between two
digits. -/
def underscoresOk : List Char → Bool
  | [] => true
  | c :: t => if c = '_' then false else usdGo c t

/-- Model of Python `float(s)` restricted to finite literals: surrounding
whitespace is ignored, an optional sign is followed by a decimal literal,
and well-placed grouping underscores are dropped.  Returns `none` exactly
when `float` raises `ValueError` (the non-finite literals `inf`/`nan` are
outside the rational idealization). -/
def pyFloat (s : String) : Option ℚ :=
  let cs := stripChars s.toList
  if underscoresOk cs then
    match cs.filter (fun c => c ≠ '_') with
    | '+' :: t => parseDec t
    | '-' :: t => (parseDec t).map (fun q => -q)
    | t => parseDec t
  else none

/-- Round a rational to the nearest integer, ties to even — the rounding
Python's `round` applies. -/
def rndHEInt (q : ℚ) : ℤ :=
  if q - ⌊q⌋ < 1 / 2 then ⌊q⌋
  else if (1 : ℚ) / 2 < q - ⌊q⌋ then ⌊q⌋ + 1
  else if ⌊q⌋ % 2 = 0 then ⌊q⌋ else ⌊q⌋ + 1

/-- Model of Python `round(q, 4)`. -/
def round4 (q : ℚ) : ℚ := (rndHEInt (q * 10 ^ 4) : ℚ) / 10 ^ 4

/-- Round `√q` to the nearest integer (ties to even), computed exactly via
the integer square root: for `q = a / b ≥ 0` we have `√q = √(a*b) / b`. -/
def rsqrtHE (q : ℚ) : ℕ :=
  let a := q.num.toNat
  let b := q.den
  let f := Nat.sqrt (a * b) / b
  if 4 * q < ((2 * f + 1 : ℕ) : ℚ) ^ 2 then f
  else if ((2 * f + 1 : ℕ) : ℚ) ^ 2 < 4 * q then f + 1
  else if f % 2 = 0 then f else f + 1

/-- Arithmetic mean, as computed exactly by `statistics.mean`. -/
def meanQ (vals : List ℚ) : ℚ := vals.sum / vals.length

/-- Standard median, as computed by `statistics.median`: sort, take the
middle element, or the average of the two middle elements for even length. -/
def medianQ (vals : List ℚ) : ℚ :=
  let s := List.insertionSort (· ≤ ·) vals
  if s.length % 2 = 1 then s.getD (s.length / 2) 0
  else (s.getD (s.length / 2 - 1) 0 + s.getD (s.length / 2) 0) / 2

/-- Sample variance (divisor `n - 1`), the square of `statistics.stdev`. -/
def svarQ (vals : List ℚ) : ℚ :=
  (vals.map (fun x => (x - meanQ vals) ^ 2)).sum / ((vals.length : ℚ) - 1)

/-- Model of `round(statistics.stdev(vals), 4)`: the sample standard
deviation `√(svarQ vals)` rounded to 4 decimal places. -/
def stdev4 (vals : List ℚ) : ℚ := (rsqrtHE (svarQ vals * 10 ^ 8) : ℚ) / 10 ^ 4

/-- The numeric statistic bundle (dict values in `compute_numeric_stats`);
all descriptive fields are `none` when `count = 0`. -/
structure NumBundle where
  count : ℕ
  mean : Option ℚ
  median : Option ℚ
  min : Option ℚ
  max : Option ℚ
  std_dev : Option ℚ
deriving DecidableEq, Repr

/-- The collected value list for one numeric column: cells are stripped,
blank cells skipped, and cells that fail to parse as a float silently
dropped (the `try/except ValueError` filter). -/
def numValues (rows : List Record) (col : String) : List ℚ :=
  rows.filterMap (fun r =>
    let v := pyStrip (getD r col)
    if v = "" then none else pyFloat v)

/-- The numeric bundle of one column, mirroring `compute_numeric_stats`'s
per-column body: empty value list gives `count = 0` and `None` fields,
otherwise count / rounded mean / rounded median / exact min / exact max /
rounded sample standard deviation (`0.0` for a single value). -/
def numBundle (rows : List Record) (col : String) : NumBundle :=
  match numValues rows col with
  | [] => ⟨0, none, none, none, none, none⟩
  | v :: vs =>
    { count := (v :: vs).length
      mean := some (round4 (meanQ (v :: vs)))
      median := some (round4 (medianQ (v :: vs)))
      min := some (vs.foldl Min.min v)
      max := some (vs.foldl Max.max v)
      std_dev := some (if 1 < (v :: vs).length then stdev4 (v :: vs) else 0) }

/-- Model of `compute_numeric_stats(rows, numeric_cols)`: the ordered dict
from each numeric column to its bundle. -/
def compute_numeric_stats (rows : List Record) (numeric_cols : List String) :
    List (String × NumBundle) :=
  numeric_cols.map (fun col => (col, numBundle rows col))

/-- First-occurrence deduplication, accumulating the set of already-seen
elements (Python dict/Counter keys appear in first-insertion order). -/
def firstOccsAux {α : Type _} [DecidableEq α] (seen : List α) : List α → List α
  | [] => []
  | x :: t => if x ∈ seen then firstOccsAux seen t else x :: firstOccsAux (x :: seen) t

/-- The distinct elements of a list in order of first appearance. -/
def firstOccs {α : Type _} [DecidableEq α] (l : List α) : List α := firstOccsAux [] l

/-- Model of `collections.Counter(values)`: each distinct value mapped to
its number of occurrences, keys in first-appearance order. -/
def countOccs (values : List String) : List (String × ℕ) :=
  (firstOccs values).map (fun v => (v, values.count v))

/-- The comparison `Counter.most_common` sorts by: descending count.  The
sort used (`insertionSort`) is stable, matching Python's stable `sorted`. -/
def cntGe (p q : String × ℕ) : Prop := q.2 ≤ p.2

instance : DecidableRel cntGe := fun p q => inferInstanceAs (Decidable (q.2 ≤ p.2))

instance : IsTotal (String × ℕ) cntGe := ⟨fun p q => le_total q.2 p.2⟩

instance : IsTrans (String × ℕ) cntGe := ⟨fun _ _ _ h h' => le_trans h' h⟩

/-- Model of `Counter(values).most_common()`: the count pairs in descending
count order, ties kept in first-appearance order (stable sort). -/
def mostCommon (values : List String) : List (String × ℕ) :=
  List.insertionSort cntGe (countOccs values)

/-- The categorical statistic bundle.  In the empty case the Python dict
has no `top_5_values` key; this is modeled by the empty list. -/
structure CatBundle where
  unique_values : ℕ
  mode : Option String
  mode_count : ℕ
  total_count : ℕ
  top_5_values : List (String × ℕ)
deriving DecidableEq, Repr

/-- The collected value list for one categorical column: stripped cell
texts with blanks removed, in row order. -/
def catValues (rows : List Record) (col : String) : List String :=
  (rows.map (fun r => pyStrip (getD r col))).filter (fun v => v ≠ "")

/-- The categorical bundle of one column, mirroring
`compute_categorical_stats`'s per-column body. -/
def catBundle (rows : List Record) (col : String) : CatBundle :=
  match catValues rows col with
  | [] => ⟨0, none, 0, 0, []⟩
  | v :: vs =>
    match mostCommon (v :: vs) with
    | [] => ⟨0, none, 0, 0, []⟩
    | (m, mc) :: rest =>
      { unique_values := (countOccs (v :: vs)).length
        mode := some m
        mode_count := mc
        total_count := (v :: vs).length
        top_5_values := ((m, mc) :: rest).take 5 }

/-- Model of `compute_categorical_stats(rows, categorical_cols)`. -/
def compute_categorical_stats (rows : List Record) (categorical_cols : List String) :
    List (String × CatBundle) :=
  categorical_cols.map (fun col => (col, catBundle rows col))

/-- One step of the column-type scan over a column's sampled cells,
carrying the non-empty count: blank cells are skipped, parsed cells
increment the count, and the first parse failure stops the scan with the
numeric flag cleared (the `break`). -/
def scanCol : List String → ℕ → Bool × ℕ
  | [], n => (true, n)
  | v :: rest, n =>
    if pyStrip v = "" then scanCol rest n
    else
      match pyFloat (pyStrip v) with
      | some _ => scanCol rest (n + 1)
      | none => (false, n + 1)

/-- Model of `detect_column_types(rows)`: inspect the first
`min(100, len(rows))` rows; a column is numeric iff its sampled non-blank
cells all parse and at least one is non-blank.  Columns keep the first
row's key order. -/
def detect_column_types (rows : List Record) : List String × List String :=
  match rows with
  | [] => ([], [])
  | first :: _ =>
    (first.map (fun p => p.1)).foldl
      (fun acc col =>
        let sc := scanCol ((rows.take (min 100 rows.length)).map (fun r => getD r col)) 0
        if sc.1 ∧ 0 < sc.2 then (acc.1 ++ [col], acc.2) else (acc.1, acc.2 ++ [col]))
      ([], [])

/-- A record's normalized Group Key: the key columns' stripped values in
order, blanks and missing cells replaced by the sentinel `"NULL"`. -/
def keyTuple (keys : List String) (r : Record) : List String :=
  keys.map (fun k =>
    let v := pyStrip (getD r k)
    if v = "" then "NULL" else v)

/-- Append a record to its group (a `defaultdict(list)` keyed by tuple):
the first entry with the same key receives the record, otherwise a fresh
group is appended at the end. -/
def addToGroups : List (List String × List Record) → List String → Record →
    List (List String × List Record)
  | [], k, r => [(k, [r])]
  | (k', rs) :: rest, k, r =>
    if k' = k then (k', rs ++ [r]) :: rest else (k', rs) :: addToGroups rest k r

/-- The grouping pass of `group_and_compute`: a single left-to-right fold
over the records. -/
def groupRows (rows : List Record) (keys : List String) :
    List (List String × List Record) :=
  rows.foldl (fun gs r => addToGroups gs (keyTuple keys r) r) []

/-- The per-group result record. -/
structure GroupResult where
  group_size : ℕ
  numeric_stats : List (String × NumBundle)
  categorical_stats : List (String × CatBundle)
deriving DecidableEq, Repr

/-- Model of `group_and_compute(rows, keys, numeric_cols,
categorical_cols)`: bucket the records by normalized key tuple, then run
both aggregators on each bucket. -/
def group_and_compute (rows : List Record)
    (keys numeric_cols categorical_cols : List String) :
    List (List String × GroupResult) :=
  (groupRows rows keys).map (fun p =>
    (p.1, ⟨p.2.length, compute_numeric_stats p.2 numeric_cols,
           compute_categorical_stats p.2 categorical_cols⟩))

/-- Assignment `new[k] = v` into an insertion-ordered dict: an existing
key keeps its position and takes the new value, a fresh key is appended. -/
def dictInsert : List (String × GroupResult) → String → GroupResult →
    List (String × GroupResult)
  | [], k, v => [(k, v)]
  | (k', v') :: rest, k, v =>
    if k' = k then (k', v) :: rest else (k', v') :: dictInsert rest k v

/-- Model of `stringify_keys`: canonicalize each tuple key into its
`"|"`-joined string form, assigning into a fresh dict — so distinct
tuples whose joined forms coincide collapse to one entry, last value
winning, exactly as Python's `new[new_key] = v` does. -/
def stringify_keys (d : List (List String × GroupResult)) :
    List (String × GroupResult) :=
  d.foldl (fun m p => dictInsert m (String.intercalate ("|") p.1) p.2) []

/-- Index of the first occurrence of `a` in `l` (length of `l` if absent). -/
def fidx {α : Type _} [DecidableEq α] : List α → α → ℕ
  | [], _ => 0
  | x :: t, a => if x = a then 0 else fidx t a + 1

/-! ### Basic lemmas about dict lookup and value collection -/

theorem lookup_map_self {β : Type _} (f : String → β) :
    ∀ (cols : List String) (col : String), col ∈ cols →
      (cols.map (fun c => (c, f c))).lookup col = some (f col) := by
  intro cols
  induction cols with
  | nil => intro col h; cases h
  | cons c cs ih =>
    intro col h
    by_cases hc : col = c
    · subst hc; simp [List.lookup]
    · have hmem : col ∈ cs := by
        rcases List.mem_cons.mp h with h1 | h1
        · exact absurd h1 hc
        · exact h1
      have hbeq : (col == c) = false := beq_eq_false_iff_ne.mpr hc
      simpa [List.lookup, hbeq] using ih col hmem

theorem length_filterMap_eq_countP {α β : Type _} (f : α → Option β) (l : List α) :
    (l.filterMap f).length = l.countP (fun a => (f a).isSome) := by
  induction l with
  | nil => rfl
  | cons a t ih =>
    cases hfa : f a <;>
      simp [List.filterMap_cons, hfa, List.countP_cons, ih]

theorem numBundle_count (rows : List Record) (col : String) :
    (numBundle rows col).count = (numValues rows col).length := by
  cases h : numValues rows col <;> simp [numBundle, h]

theorem numValues_length (rows : List Record) (col : String) :
    (numValues rows col).length = rows.countP (fun r =>
      !(pyStrip (getD r col) == "") && (pyFloat (pyStrip (getD r col))).isSome) := by
  rw [numValues, length_filterMap_eq_countP]
  congr 1
  funext r
  by_cases hv : pyStrip (getD r col) = "" <;> simp [hv]

/-- C1: for every list of records and every numeric column, the Statistics
Aggregator is total (never raises): the bundle's `count` counts exactly the
rows whose stripped cell is non-blank and parses as a float — blank or
unparseable cells are silently excluded — and when no value survives the
bundle reports `count = 0` with `mean`, `median`, `min`, `max` and
`std_dev` all `none`. -/
theorem claim_C1 (rows : List Record) (cols : List String) (col : String)
    (hcol : col ∈ cols) :
    ∃ b : NumBundle,
      (compute_numeric_stats rows cols).lookup col = some b ∧
      b.count = rows.countP (fun r =>
        !(pyStrip (getD r col) == "") && (pyFloat (pyStrip (getD r col))).isSome) ∧
      (b.count = 0 → b = ⟨0, none, none, none, none, none⟩) := by
  refine ⟨numBundle rows col, lookup_map_self _ cols col hcol, ?_, ?_⟩
  · rw [numBundle_count, numValues_length]
  · intro h0
    have hlen : (numValues rows col).length = 0 := by
      rw [← numBundle_count rows col, h0]
    have hnil : numValues rows col = [] := List.length_eq_zero.mp hlen
    simp [numBundle, hnil]

/-- Witness for C1 at a concrete table whose `spend` cells are all blank or
unparseable: the hypothesis holds and the bundle degrades to the all-`none`
shape. -/
theorem claim_C1_witness :
    ("spend" : String) ∈ ["spend"] ∧
    ∃ b : NumBundle,
      (compute_numeric_stats [[("spend", "x")], [("spend", " ")]] ["spend"]).lookup
          ("spend") = some b ∧
      b.count = [[("spend", "x")], [("spend", " ")]].countP (fun r =>
        !(pyStrip (getD r ("spend")) == "") &&
          (pyFloat (pyStrip (getD r ("spend")))).isSome) ∧
      (b.count = 0 → b = ⟨0, none, none, none, none, none⟩) :=
  ⟨by decide, claim_C1 [[("spend", "x")], [("spend", " ")]] ["spend"] ("spend") (by decide)⟩

/-! ### Column type detection lemmas -/

theorem scanCol_fst (cells : List String) :
    ∀ n : ℕ, (scanCol cells n).1 = true ↔
      ∀ v ∈ cells, pyStrip v ≠ "" → (pyFloat (pyStrip v)).isSome := by
  induction cells with
  | nil => intro n; simp [scanCol]
  | cons v rest ih =>
    intro n
    by_cases hb : pyStrip v = ""
    · simpa [scanCol, hb] using ih n
    · cases hf : pyFloat (pyStrip v) with
      | none => simp [scanCol, hb, hf]
      | some q =>
        simp only [scanCol, hb, if_neg hb, hf, if_false]
        rw [ih (n + 1)]
        constructor
        · intro h w hw
          rcases List.mem_cons.mp hw with h1 | h1
          · subst h1; intro _; simp [hf]
          · exact h w h1
        · intro h w hw; exact h w (List.mem_cons_of_mem _ hw)

theorem scanCol_snd (cells : List String) :
    ∀ n : ℕ, (scanCol cells n).1 = true →
      (scanCol cells n).2 = n + cells.countP (fun v => !(pyStrip v == "")) := by
  induction cells with
  | nil => intro n _; simp [scanCol]
  | cons v rest ih =>
    intro n htrue
    by_cases hb : pyStrip v = ""
    · have h1 := ih n (by simpa [scanCol, hb] using htrue)
      simp [scanCol, hb, h1, List.countP_cons]
    · cases hf : pyFloat (pyStrip v) with
      | none => simp [scanCol, hb, hf] at htrue
      | some q =>
        have htrue' : (scanCol rest (n + 1)).1 = true := by
          simpa [scanCol, hb, hf] using htrue
        have h1 := ih (n + 1) htrue'
        simp only [scanCol, if_neg hb, hf]
        rw [h1, List.countP_cons]
        have : (!(pyStrip v == "")) = true := by simpa using hb
        rw [this]
        simp only [if_true]
        omega

theorem foldl_partition (p : String → Prop) [DecidablePred p] :
    ∀ (cols : List String) (acc : List String × List String),
      cols.foldl
        (fun acc col => if p col then (acc.1 ++ [col], acc.2) else (acc.1, acc.2 ++ [col]))
        acc
      = (acc.1 ++ cols.filter (fun c => decide (p c)),
         acc.2 ++ cols.filter (fun c => !decide (p c))) := by
  intro cols
  induction cols with
  | nil => intro acc; simp
  | cons c cs ih =>
    intro acc
    by_cases hc : p c
    · simp [List.foldl_cons, hc, ih, List.filter_cons]
    · simp [List.foldl_cons, hc, ih, List.filter_cons]

theorem take_min_100 {α : Type _} (l : List α) : l.take (min 100 l.length) = l.take 100 := by
  rcases le_or_lt l.length 100 with h | h
  · rw [min_eq_right h, List.take_of_length_le (le_refl _), List.take_of_length_le h]
  · rw [min_eq_left h.le]

theorem detect_eq_filter (first : Record) (rest : List Record) :
    detect_column_types (first :: rest) =
      ((first.map (fun p => p.1)).filter (fun col => decide
        ((scanCol (((first :: rest).take (min 100 (first :: rest).length)).map
            (fun r => getD r col)) 0).1
          ∧ 0 < (scanCol (((first :: rest).take (min 100 (first :: rest).length)).map
            (fun r => getD r col)) 0).2)),
       (first.map (fun p => p.1)).filter (fun col => !decide
        ((scanCol (((first :: rest).take (min 100 (first :: rest).length)).map
            (fun r => getD r col)) 0).1
          ∧ 0 < (scanCol (((first :: rest).take (min 100 (first :: rest).length)).map
            (fun r => getD r col)) 0).2))) := by
  have h := foldl_partition
    (fun col => (scanCol (((first :: rest).take (min 100 (first :: rest).length)).map
        (fun r => getD r col)) 0).1
      ∧ 0 < (scanCol (((first :: rest).take (min 100 (first :: rest).length)).map
        (fun r => getD r col)) 0).2)
    (first.map (fun p => p.1)) ([], [])
  simp only [List.nil_append] at h
  exact h

theorem scanCol_semantics (rows : List Record) (col : String) :
    ((scanCol ((rows.take 100).map (fun r => getD r col)) 0).1 = true
      ∧ 0 < (scanCol ((rows.take 100).map (fun r => getD r col)) 0).2)
    ↔ ((∃ r ∈ rows.take 100, pyStrip (getD r col) ≠ "") ∧
       (∀ r ∈ rows.take 100, pyStrip (getD r col) ≠ "" →
         (pyFloat (pyStrip (getD r col))).isSome)) := by
  constructor
  · rintro ⟨h1, h2⟩
    have hall := (scanCol_fst _ 0).mp h1
    refine ⟨?_, ?_⟩
    · rw [scanCol_snd _ 0 h1, Nat.zero_add] at h2
      obtain ⟨v, hv, hpv⟩ := List.countP_pos_iff.mp h2
      obtain ⟨r, hr, rfl⟩ := List.mem_map.mp hv
      exact ⟨r, hr, by simpa using hpv⟩
    · intro r hr hne
      exact hall _ (List.mem_map.mpr ⟨r, hr, rfl⟩) hne
  · rintro ⟨⟨r, hr, hne⟩, hall⟩
    have h1 : (scanCol ((rows.take 100).map (fun r => getD r col)) 0).1 = true := by
      refine (scanCol_fst _ 0).mpr ?_
      intro v hv hvne
      obtain ⟨r', hr', rfl⟩ := List.mem_map.mp hv
      exact hall r' hr' hvne
    refine ⟨h1, ?_⟩
    rw [scanCol_snd _ 0 h1, Nat.zero_add]
    exact List.countP_pos_iff.mpr
      ⟨getD r col, List.mem_map.mpr ⟨r, hr, rfl⟩, by simpa using hne⟩

/-- C3: the Column Type Classifier marks a column numeric iff it is one of
the table's columns, among the rows it inspects (the first `min(100, n)`)
it has at least one non-blank cell, and every inspected non-blank cell
parses as a float; any other column of the table — including an all-blank
one — is marked categorical. -/
theorem claim_C3 (first : Record) (rest : List Record) (col : String) :
    (col ∈ (detect_column_types (first :: rest)).1 ↔
      col ∈ first.map (fun p => p.1) ∧
      ((∃ r ∈ (first :: rest).take 100, pyStrip (getD r col) ≠ "") ∧
       (∀ r ∈ (first :: rest).take 100, pyStrip (getD r col) ≠ "" →
         (pyFloat (pyStrip (getD r col))).isSome))) ∧
    (col ∈ (detect_column_types (first :: rest)).2 ↔
      col ∈ first.map (fun p => p.1) ∧
      ¬((∃ r ∈ (first :: rest).take 100, pyStrip (getD r col) ≠ "") ∧
        (∀ r ∈ (first :: rest).take 100, pyStrip (getD r col) ≠ "" →
          (pyFloat (pyStrip (getD r col))).isSome))) := by
  have hmin := take_min_100 (first :: rest)
  rw [detect_eq_filter]
  simp only [hmin, List.mem_filter, decide_eq_true_eq, Bool.not_eq_true',
    decide_eq_false_iff_not]
  rw [scanCol_semantics (first :: rest) col]
  exact ⟨Iff.rfl, Iff.rfl⟩

/-- Witness for C3 on the concrete table `[{a: "1", b: "x", c: " "}]`:
column `a` is classified numeric, column `b` (unparseable) and column `c`
(all blank) categorical. -/
theorem claim_C3_witness :
    ("a" : String) ∈ (detect_column_types [[("a", "1"), ("b", "x"), ("c", " ")]]).1 ∧
    ("b" : String) ∈ (detect_column_types [[("a", "1"), ("b", "x"), ("c", " ")]]).2 ∧
    ("c" : String) ∈ (detect_column_types [[("a", "1"), ("b", "x"), ("c", " ")]]).2 :=
  ⟨(claim_C3 [("a", "1"), ("b", "x"), ("c", " ")] [] ("a")).1.mpr
      ⟨by decide, by decide, by decide⟩,
   (claim_C3 [("a", "1"), ("b", "x"), ("c", " ")] [] ("b")).2.mpr
      ⟨by decide, by decide⟩,
   (claim_C3 [("a", "1"), ("b", "x"), ("c", " ")] [] ("c")).2.mpr
      ⟨by decide, by decide⟩⟩

/-- C4: for every table (including the empty one), the Classifier's two
output sequences are subsequences of the table's column list (hence in
original column order), they are disjoint, and together they cover exactly
the column set. -/
theorem claim_C4 (rows : List Record) :
    ((detect_column_types rows).1.Sublist ((rows.head?.getD []).map (fun p => p.1)) ∧
     (detect_column_types rows).2.Sublist ((rows.head?.getD []).map (fun p => p.1))) ∧
    (∀ col, ¬(col ∈ (detect_column_types rows).1 ∧ col ∈ (detect_column_types rows).2)) ∧
    (∀ col, col ∈ (rows.head?.getD []).map (fun p => p.1) ↔
      col ∈ (detect_column_types rows).1 ∨ col ∈ (detect_column_types rows).2) := by
  cases rows with
  | nil => simp [detect_column_types]
  | cons first rest =>
    rw [detect_eq_filter]
    refine ⟨⟨List.filter_sublist _, List.filter_sublist _⟩, ?_, ?_⟩
    · rintro col ⟨h1, h2⟩
      rw [List.mem_filter] at h1 h2
      rw [h1.2] at h2
      simp at h2
    · intro col
      constructor
      · intro hmem
        by_cases hp :
            ((scanCol (((first :: rest).take (min 100 (first :: rest).length)).map
                (fun r => getD r col)) 0).1 = true
              ∧ 0 < (scanCol (((first :: rest).take (min 100 (first :: rest).length)).map
                (fun r => getD r col)) 0).2)
        · exact Or.inl (List.mem_filter.mpr ⟨hmem, decide_eq_true hp⟩)
        · refine Or.inr (List.mem_filter.mpr ⟨hmem, ?_⟩)
          show (!decide _) = true
          rw [decide_eq_false hp]
          rfl
      · rintro (h | h) <;> exact (List.mem_filter.mp h).1

/-- Witness for C4 at the concrete table `[{a: "1", b: "x"}]`. -/
theorem claim_C4_witness :
    ((detect_column_types [[("a", "1"), ("b", "x")]]).1.Sublist
        (([[("a", "1"), ("b", "x")]].head?.getD []).map (fun p => p.1)) ∧
     (detect_column_types [[("a", "1"), ("b", "x")]]).2.Sublist
        (([[("a", "1"), ("b", "x")]].head?.getD []).map (fun p => p.1))) ∧
    (¬(("a" : String) ∈ (detect_column_types [[("a", "1"), ("b", "x")]]).1 ∧
       ("a" : String) ∈ (detect_column_types [[("a", "1"), ("b", "x")]]).2)) ∧
    (("b" : String) ∈ ([[("a", "1"), ("b", "x")]].head?.getD []).map (fun p => p.1) ↔
      ("b" : String) ∈ (detect_column_types [[("a", "1"), ("b", "x")]]).1 ∨
      ("b" : String) ∈ (detect_column_types [[("a", "1"), ("b", "x")]]).2) :=
  ⟨(claim_C4 [[("a", "1"), ("b", "x")]]).1,
   (claim_C4 [[("a", "1"), ("b", "x")]]).2.1 ("a"),
   (claim_C4 [[("a", "1"), ("b", "x")]]).2.2 ("b")⟩

/-- C9: the sampled Classifier's output depends only on the first
`min(100, n)` rows — two tables agreeing on their 100-row prefixes are
classified identically, so changing any row at index 100 or beyond never
changes the classification. -/
theorem claim_C9 (rows rows' : List Record)
    (h : rows.take 100 = rows'.take 100) :
    detect_column_types rows = detect_column_types rows' := by
  cases rows with
  | nil =>
    cases rows' with
    | nil => rfl
    | cons f' r' => simp [List.take] at h
  | cons f r =>
    cases rows' with
    | nil => simp [List.take] at h
    | cons f' r' =>
      have hf : f = f' := by
        have := congrArg (fun l => l.head?) h
        simpa [List.take] using this
      rw [detect_eq_filter, detect_eq_filter,
        take_min_100 (f :: r), take_min_100 (f' :: r'), h, hf]

/-- Witness for C9: two 1-row tables that agree on their prefix (they are
equal) classify identically; the hypothesis is discharged by computation. -/
theorem claim_C9_witness :
    detect_column_types [[("a", "1")], [("a", "2")]] =
      detect_column_types [[("a", "1")], [("a", "2")]] :=
  claim_C9 [[("a", "1")], [("a", "2")]] [[("a", "1")], [("a", "2")]] (by decide)

/-! ### First-occurrence deduplication lemmas -/

theorem mem_firstOccsAux {α : Type _} [DecidableEq α] (a : α) :
    ∀ (l seen : List α), a ∈ firstOccsAux seen l ↔ a ∈ l ∧ a ∉ seen := by
  intro l
  induction l with
  | nil => intro seen; simp [firstOccsAux]
  | cons x t ih =>
    intro seen
    by_cases hx : x ∈ seen
    · rw [firstOccsAux, if_pos hx, ih]
      constructor
      · rintro ⟨h1, h2⟩; exact ⟨List.mem_cons_of_mem _ h1, h2⟩
      · rintro ⟨h1, h2⟩
        rcases List.mem_cons.mp h1 with rfl | h1
        · exact absurd hx h2
        · exact ⟨h1, h2⟩
    · rw [firstOccsAux, if_neg hx]
      constructor
      · intro h
        rcases List.mem_cons.mp h with rfl | h
        · exact ⟨List.mem_cons_self _ _, hx⟩
        · have h' := (ih (x :: seen)).mp h
          exact ⟨List.mem_cons_of_mem _ h'.1, fun hs => h'.2 (List.mem_cons_of_mem _ hs)⟩
      · rintro ⟨h1, h2⟩
        rcases List.mem_cons.mp h1 with rfl | h1
        · exact List.mem_cons_self _ _
        · by_cases hax : a = x
          · subst hax; exact List.mem_cons_self _ _
          · refine List.mem_cons_of_mem _ ((ih (x :: seen)).mpr ⟨h1, ?_⟩)
            intro hs
            rcases List.mem_cons.mp hs with h | h
            · exact hax h
            · exact h2 h

theorem mem_firstOccs {α : Type _} [DecidableEq α] (a : α) (l : List α) :
    a ∈ firstOccs l ↔ a ∈ l := by
  rw [firstOccs, mem_firstOccsAux]
  simp

theorem nodup_firstOccsAux {α : Type _} [DecidableEq α] :
    ∀ (l seen : List α), (firstOccsAux seen l).Nodup := by
  intro l
  induction l with
  | nil => intro seen; simp [firstOccsAux]
  | cons x t ih =>
    intro seen
    by_cases hx : x ∈ seen
    · simpa [firstOccsAux, hx] using ih seen
    · rw [firstOccsAux, if_neg hx]
      refine List.nodup_cons.mpr ⟨?_, ih (x :: seen)⟩
      intro hmem
      exact ((mem_firstOccsAux x t (x :: seen)).mp hmem).2 (List.mem_cons_self _ _)

theorem nodup_firstOccs {α : Type _} [DecidableEq α] (l : List α) :
    (firstOccs l).Nodup := nodup_firstOccsAux l []

theorem firstOccsAux_append {α : Type _} [DecidableEq α] (x : α) :
    ∀ (l seen : List α), firstOccsAux seen (l ++ [x]) =
      firstOccsAux seen l ++ (if x ∈ seen ∨ x ∈ l then [] else [x]) := by
  intro l
  induction l with
  | nil =>
    intro seen
    by_cases hx : x ∈ seen <;> simp [firstOccsAux, hx]
  | cons y t ih =>
    intro seen
    by_cases hy : y ∈ seen
    · have hcond : (x ∈ seen ∨ x ∈ t) ↔ (x ∈ seen ∨ x ∈ y :: t) := by
        constructor
        · rintro (h | h)
          · exact Or.inl h
          · exact Or.inr (List.mem_cons_of_mem _ h)
        · rintro (h | h)
          · exact Or.inl h
          · rcases List.mem_cons.mp h with rfl | h
            · exact Or.inl hy
            · exact Or.inr h
      rw [List.cons_append, firstOccsAux, if_pos hy, ih, firstOccsAux, if_pos hy,
        if_congr hcond rfl rfl]
    · have hcond : (x ∈ y :: seen ∨ x ∈ t) ↔ (x ∈ seen ∨ x ∈ y :: t) := by
        constructor
        · rintro (h | h)
          · rcases List.mem_cons.mp h with rfl | h
            · exact Or.inr (List.mem_cons_self _ _)
            · exact Or.inl h
          · exact Or.inr (List.mem_cons_of_mem _ h)
        · rintro (h | h)
          · exact Or.inl (List.mem_cons_of_mem _ h)
          · rcases List.mem_cons.mp h with rfl | h
            · exact Or.inl (List.mem_cons_self _ _)
            · exact Or.inr h
      rw [List.cons_append, firstOccsAux, if_neg hy, ih, firstOccsAux, if_neg hy,
        if_congr hcond rfl rfl, List.cons_append]

theorem firstOccs_append {α : Type _} [DecidableEq α] (l : List α) (x : α) :
    firstOccs (l ++ [x]) = firstOccs l ++ (if x ∈ l then [] else [x]) := by
  rw [firstOccs, firstOccsAux_append, firstOccs]
  congr 1
  refine if_congr ?_ rfl rfl
  simp

theorem toFinset_firstOccs {α : Type _} [DecidableEq α] (l : List α) :
    (firstOccs l).toFinset = l.toFinset := by
  ext a
  simp [List.mem_toFinset, mem_firstOccs]

theorem beq_decide {α : Type _} [DecidableEq α] [BEq α] [LawfulBEq α] (a b : α) :
    (a == b) = decide (a = b) := by
  by_cases h : a = b
  · subst h; simp
  · simp [h, beq_eq_false_iff_ne.mpr h]

theorem sum_countP_firstOccs {α : Type _} [DecidableEq α] (M : List α) :
    ((firstOccs M).map (fun k => M.countP (fun x => decide (x = k)))).sum = M.length := by
  have h1 : ((firstOccs M).map (fun k => M.countP (fun x => decide (x = k)))).sum
      = ∑ a in (firstOccs M).toFinset, M.countP (fun x => decide (x = a)) :=
    (List.sum_toFinset _ (nodup_firstOccs M)).symm
  have h2 : ∀ a : α, M.countP (fun x => decide (x = a)) = M.count a := fun a => rfl
  rw [h1, toFinset_firstOccs]
  calc (∑ a in M.toFinset, M.countP (fun x => decide (x = a)))
      = ∑ a in M.toFinset, M.count a := by
        refine Finset.sum_congr rfl ?_
        intro a _
        exact h2 a
    _ = M.length := List.sum_toFinset_count_eq_length M

/-! ### Grouping engine lemmas -/

theorem addToGroups_spec (g : List String → List Record) :
    ∀ (ks : List (List String)) (k0 : List String) (r : Record), ks.Nodup →
      addToGroups (ks.map (fun k => (k, g k))) k0 r =
        if k0 ∈ ks then ks.map (fun k => (k, if k = k0 then g k ++ [r] else g k))
        else ks.map (fun k => (k, g k)) ++ [(k0, [r])] := by
  intro ks
  induction ks with
  | nil => intro k0 r _; simp [addToGroups]
  | cons k ks' ih =>
    intro k0 r hnd
    obtain ⟨hknot, hnd'⟩ := List.nodup_cons.mp hnd
    by_cases hk : k = k0
    · subst hk
      rw [List.map_cons, addToGroups, if_pos rfl, if_pos (List.mem_cons_self _ _)]
      rw [List.map_cons, if_pos rfl]
      congr 1
      refine (List.map_congr_left ?_).symm
      intro a ha
      have : a ≠ k := fun h => hknot (h ▸ ha)
      rw [if_neg this]
    · rw [List.map_cons, addToGroups, if_neg hk, ih k0 r hnd']
      by_cases hmem : k0 ∈ ks'
      · rw [if_pos hmem, if_pos (List.mem_cons_of_mem _ hmem), List.map_cons, if_neg hk]
      · have hnotmem : k0 ∉ k :: ks' := by
          intro h
          rcases List.mem_cons.mp h with h | h
          · exact hk h.symm
          · exact hmem h
        rw [if_neg hmem, if_neg hnotmem]
        simp

theorem groupRows_eq (keys : List String) (rows : List Record) :
    groupRows rows keys =
      (firstOccs (rows.map (keyTuple keys))).map
        (fun k => (k, rows.filter (fun r => keyTuple keys r == k))) := by
  induction rows using List.reverseRecOn with
  | nil => simp [groupRows, firstOccs, firstOccsAux]
  | append_singleton rs r ih =>
    have hfold : groupRows (rs ++ [r]) keys
        = addToGroups (groupRows rs keys) (keyTuple keys r) r := by
      rw [groupRows, List.foldl_append, List.foldl_cons, List.foldl_nil]
      rfl
    have hm : (rs ++ [r]).map (keyTuple keys)
        = rs.map (keyTuple keys) ++ [keyTuple keys r] := by simp
    rw [hfold, ih,
      addToGroups_spec (fun k => rs.filter (fun r' => keyTuple keys r' == k)) _ _ r
        (nodup_firstOccs _), hm, firstOccs_append]
    by_cases hmem : keyTuple keys r ∈ rs.map (keyTuple keys)
    · rw [if_pos ((mem_firstOccs _ _).mpr hmem), if_pos hmem, List.append_nil]
      refine List.map_congr_left ?_
      intro k hk
      by_cases hkk : k = keyTuple keys r
      · subst hkk
        rw [if_pos rfl, List.filter_append]
        simp
      · rw [if_neg hkk, List.filter_append]
        have : (keyTuple keys r == k) = false := by
          refine beq_eq_false_iff_ne.mpr ?_
          exact fun h => hkk (h.symm)
        simp [this]
    · rw [if_neg (fun h => hmem ((mem_firstOccs _ _).mp h)), if_neg hmem, List.map_append]
      congr 1
      · refine List.map_congr_left ?_
        intro k hk
        rw [List.filter_append]
        have hne : k ≠ keyTuple keys r := by
          intro h
          exact hmem (h ▸ (mem_firstOccs _ _).mp hk)
        have : (keyTuple keys r == k) = false :=
          beq_eq_false_iff_ne.mpr (fun h => hne h.symm)
        simp [this]
      · rw [List.map_cons, List.map_nil, List.filter_append]
        have hnil : rs.filter (fun r' => keyTuple keys r' == keyTuple keys r) = [] := by
          refine List.filter_eq_nil_iff.mpr ?_
          intro r' hr' hbeq
          exact hmem (beq_iff_eq.mp hbeq ▸ List.mem_map_of_mem (keyTuple keys) hr')
        simp [hnil]

theorem dictInsert_of_not_mem (k : String) (v : GroupResult) :
    ∀ m : List (String × GroupResult), (∀ p ∈ m, p.1 ≠ k) →
      dictInsert m k v = m ++ [(k, v)] := by
  intro m
  induction m with
  | nil => intro _; rfl
  | cons q rest ih =>
    intro hfresh
    rw [show q = (q.1, q.2) from rfl, dictInsert,
      if_neg (hfresh q (List.mem_cons_self _ _)), ih]
    · rfl
    · intro p hp
      exact hfresh p (List.mem_cons_of_mem _ hp)

theorem stringify_keys_nodup :
    ∀ d : List (List String × GroupResult),
      (d.map (fun p => String.intercalate ("|") p.1)).Nodup →
      stringify_keys d = d.map (fun p => (String.intercalate ("|") p.1, p.2)) := by
  intro d
  induction d using List.reverseRecOn with
  | nil => intro _; rfl
  | append_singleton rs p ih =>
    intro hnd
    rw [List.map_append] at hnd
    obtain ⟨hnd1, hnd2, hdisj⟩ := List.nodup_append.mp hnd
    have hfold : stringify_keys (rs ++ [p])
        = dictInsert (stringify_keys rs) (String.intercalate ("|") p.1) p.2 := by
      rw [stringify_keys, List.foldl_append, List.foldl_cons, List.foldl_nil]
      rfl
    rw [hfold, ih hnd1, List.map_append]
    have hfresh : ∀ q ∈ rs.map (fun p => (String.intercalate ("|") p.1, p.2)),
        q.1 ≠ String.intercalate ("|") p.1 := by
      intro q hq
      obtain ⟨a, ha, rfl⟩ := List.mem_map.mp hq
      intro hcontra
      exact hdisj (List.mem_map.mpr ⟨a, ha, hcontra⟩) (by simp)
    rw [dictInsert_of_not_mem _ _ _ hfresh]
    simp

/-- C6 counterexample: a table with three distinct (page, ad) key tuples
whose delimiter-containing values make two of the `"|"`-joined keys
coincide; the Result Collection then has only two entries, not three. -/
theorem claim_C6_counterexample :
    (firstOccs (([[("page", "1"), ("ad", "a")],
        [("page", "x|y"), ("ad", "z")],
        [("page", "x"), ("ad", "y|z")]] : List Record).map
          (keyTuple ["page", "ad"]))).length = 3 ∧
    (stringify_keys (group_and_compute
        [[("page", "1"), ("ad", "a")],
         [("page", "x|y"), ("ad", "z")],
         [("page", "x"), ("ad", "y|z")]] ["page", "ad"] [] [])).length = 2 :=
  ⟨by decide, by decide⟩

/-- C6 (amended): the Grouping Engine computes each record's Group Key by
reading the key columns in order, trimming whitespace and substituting
`"NULL"` for blank/missing values; records are grouped exactly by
equality of these normalized tuples (one group per distinct key in
first-occurrence order, each group holding, in order, the records whose
key equals it), and the Result Collection keys each group by its tuple
joined with `"|"`.  Provided the joined keys of the distinct tuples are
pairwise distinct — as when no key value contains the delimiter — the
collection has exactly one entry per distinct tuple, so the concrete
three-distinct-pair table yields exactly the keys `"1|a"`, `"1|b"`,
`"2|a"`; otherwise colliding joined keys collapse (last value wins). -/
theorem claim_C6 (rows : List Record) (keys ncols ccols : List String)
    (_hkeys : keys ≠ [])
    (hnocoll : ((firstOccs (rows.map (keyTuple keys))).map
      (fun k => String.intercalate ("|") k)).Nodup) :
    (∀ r : Record, keyTuple keys r = keys.map (fun k =>
      if pyStrip (getD r k) = "" then "NULL" else pyStrip (getD r k))) ∧
    stringify_keys (group_and_compute rows keys ncols ccols) =
      (firstOccs (rows.map (keyTuple keys))).map (fun k =>
        (String.intercalate ("|") k,
         { group_size := (rows.filter (fun r => keyTuple keys r == k)).length
           numeric_stats :=
             compute_numeric_stats (rows.filter (fun r => keyTuple keys r == k)) ncols
           categorical_stats :=
             compute_categorical_stats (rows.filter (fun r => keyTuple keys r == k)) ccols })) ∧
    (stringify_keys (group_and_compute
        [[("page", "1"), ("ad", "a")], [("page", "1"), ("ad", "b")],
         [("page", "2"), ("ad", "a")]] ["page", "ad"] [] [])).map (fun p => p.1)
      = ["1|a", "1|b", "2|a"] := by
  refine ⟨fun r => rfl, ?_, by decide⟩
  have hgc : group_and_compute rows keys ncols ccols
      = (firstOccs (rows.map (keyTuple keys))).map (fun k =>
          (k, { group_size := (rows.filter (fun r => keyTuple keys r == k)).length
                numeric_stats :=
                  compute_numeric_stats (rows.filter (fun r => keyTuple keys r == k)) ncols
                categorical_stats :=
                  compute_categorical_stats
                    (rows.filter (fun r => keyTuple keys r == k)) ccols })) := by
    rw [group_and_compute, groupRows_eq, List.map_map]
    rfl
  have hnd : (((firstOccs (rows.map (keyTuple keys))).map (fun k =>
      (k, ({ group_size := (rows.filter (fun r => keyTuple keys r == k)).length
             numeric_stats :=
               compute_numeric_stats (rows.filter (fun r => keyTuple keys r == k)) ncols
             categorical_stats :=
               compute_categorical_stats
                 (rows.filter (fun r => keyTuple keys r == k)) ccols } : GroupResult)))).map
        (fun p => String.intercalate ("|") p.1)).Nodup := by
    rw [List.map_map]
    exact hnocoll
  rw [hgc, stringify_keys_nodup _ hnd, List.map_map]
  rfl

/-- Witness for C6 at the singleton key list `["k"]` over a two-row table
with one blank key cell (normalized to `"NULL"`); the joined keys `"v"`
and `"NULL"` are distinct, discharging the no-collision hypothesis. -/
theorem claim_C6_witness :
    ((["k"] : List String) ≠ [] ∧
      ((firstOccs (([[("k", "v")], [("k", " ")]] : List Record).map
        (keyTuple ["k"]))).map (fun k => String.intercalate ("|") k)).Nodup) ∧
    ((∀ r : Record, keyTuple ["k"] r = (["k"] : List String).map (fun k =>
      if pyStrip (getD r k) = "" then "NULL" else pyStrip (getD r k))) ∧
    stringify_keys (group_and_compute [[("k", "v")], [("k", " ")]] ["k"] [] []) =
      (firstOccs (([[("k", "v")], [("k", " ")]] : List Record).map
          (keyTuple ["k"]))).map (fun k =>
        (String.intercalate ("|") k,
         { group_size := ([[("k", "v")], [("k", " ")]].filter
             (fun r => keyTuple ["k"] r == k)).length
           numeric_stats := compute_numeric_stats
             ([[("k", "v")], [("k", " ")]].filter (fun r => keyTuple ["k"] r == k)) []
           categorical_stats := compute_categorical_stats
             ([[("k", "v")], [("k", " ")]].filter (fun r => keyTuple ["k"] r == k)) [] })) ∧
    (stringify_keys (group_and_compute
        [[("page", "1"), ("ad", "a")], [("page", "1"), ("ad", "b")],
         [("page", "2"), ("ad", "a")]] ["page", "ad"] [] [])).map (fun p => p.1)
      = ["1|a", "1|b", "2|a"]) :=
  ⟨⟨by decide, by decide⟩,
   claim_C6 [[("k", "v")], [("k", " ")]] ["k"] [] [] (by decide) (by decide)⟩

/-- C7: grouping completeness — the `group_size` fields of the Result
Collection produced by the Grouping Engine sum to the number of input
records: every record lands in exactly one group. -/
theorem claim_C7 (rows : List Record) (keys ncols ccols : List String) :
    ((group_and_compute rows keys ncols ccols).map (fun p => p.2.group_size)).sum
      = rows.length := by
  rw [group_and_compute, groupRows_eq, List.map_map, List.map_map]
  have hbase := sum_countP_firstOccs (rows.map (keyTuple keys))
  rw [List.length_map] at hbase
  refine Eq.trans ?_ hbase
  congr 1
  refine List.map_congr_left ?_
  intro k _
  show (rows.filter (fun r => keyTuple keys r == k)).length
      = (rows.map (keyTuple keys)).countP (fun x => decide (x = k))
  rw [List.countP_map, ← List.countP_eq_length_filter]
  congr 1
  funext r
  show (keyTuple keys r == k) = decide (keyTuple keys r = k)
  exact beq_decide _ _

/-- Witness for C7 at a concrete two-row table grouped by `k` (one blank
key cell): group sizes sum to the record count. -/
theorem claim_C7_witness :
    ((group_and_compute [[("k", "a")], [("k", "")]] ["k"] [] []).map
      (fun p => p.2.group_size)).sum = ([[("k", "a")], [("k", "")]] : List Record).length :=
  claim_C7 [[("k", "a")], [("k", "")]] ["k"] [] []

/-- C8: determinism/idempotence — the aggregators are pure functions of
their arguments: running them twice on equal (immutable) inputs yields
identical numeric and categorical bundle maps, with no hidden state. -/
theorem claim_C8 (rows rows' : List Record) (ncols ccols : List String)
    (h : rows = rows') :
    compute_numeric_stats rows ncols = compute_numeric_stats rows' ncols ∧
    compute_categorical_stats rows ccols = compute_categorical_stats rows' ccols := by
  subst h
  exact ⟨rfl, rfl⟩

/-- Witness for C8: a re-run on the same concrete table yields the same
bundles. -/
theorem claim_C8_witness :
    compute_numeric_stats [[("a", "1")]] ["a"] = compute_numeric_stats [[("a", "1")]] ["a"] ∧
    compute_categorical_stats [[("a", "1")]] ["a"]
      = compute_categorical_stats [[("a", "1")]] ["a"] :=
  claim_C8 [[("a", "1")]] [[("a", "1")]] ["a"] ["a"] (by decide)

/-! ### First-appearance index and sort stability -/

theorem fidx_cons_self {α : Type _} [DecidableEq α] (x : α) (t : List α) :
    fidx (x :: t) x = 0 := by simp [fidx]

theorem fidx_cons_ne {α : Type _} [DecidableEq α] {x a : α} (t : List α) (h : a ≠ x) :
    fidx (x :: t) a = fidx t a + 1 := by
  have : ¬(x = a) := fun he => h he.symm
  simp [fidx, this]

theorem fidx_map_inj {α β : Type _} [DecidableEq α] [DecidableEq β]
    {f : α → β} (hf : Function.Injective f) :
    ∀ (l : List α) (a : α), fidx (l.map f) (f a) = fidx l a := by
  intro l
  induction l with
  | nil => intro a; rfl
  | cons x t ih =>
    intro a
    by_cases hxa : x = a
    · subst hxa; simp [fidx]
    · have h1 : ¬(f x = f a) := fun he => hxa (hf he)
      simp [fidx, hxa, h1, ih]

theorem pairwise_fidx_firstOccsAux {α : Type _} [DecidableEq α] :
    ∀ (t seen : List α),
      (firstOccsAux seen t).Pairwise (fun a b => fidx t a < fidx t b) := by
  intro t
  induction t with
  | nil => intro seen; simp [firstOccsAux]
  | cons u t' ih =>
    intro seen
    by_cases hu : u ∈ seen
    · rw [firstOccsAux, if_pos hu]
      refine (ih seen).imp_of_mem ?_
      intro a b ha hb hab
      have ha' := (mem_firstOccsAux a t' seen).mp ha
      have hb' := (mem_firstOccsAux b t' seen).mp hb
      have hane : a ≠ u := fun h => ha'.2 (h ▸ hu)
      have hbne : b ≠ u := fun h => hb'.2 (h ▸ hu)
      rw [fidx_cons_ne t' hane, fidx_cons_ne t' hbne]
      omega
    · rw [firstOccsAux, if_neg hu]
      refine List.pairwise_cons.mpr ⟨?_, ?_⟩
      · intro b hb
        have hb' := (mem_firstOccsAux b t' (u :: seen)).mp hb
        have hbne : b ≠ u := fun h => hb'.2 (h ▸ List.mem_cons_self _ _)
        rw [fidx_cons_self, fidx_cons_ne t' hbne]
        omega
      · refine (ih (u :: seen)).imp_of_mem ?_
        intro a b ha hb hab
        have ha' := (mem_firstOccsAux a t' (u :: seen)).mp ha
        have hb' := (mem_firstOccsAux b t' (u :: seen)).mp hb
        have hane : a ≠ u := fun h => ha'.2 (h ▸ List.mem_cons_self _ _)
        have hbne : b ≠ u := fun h => hb'.2 (h ▸ List.mem_cons_self _ _)
        rw [fidx_cons_ne t' hane, fidx_cons_ne t' hbne]
        omega

theorem pairwise_fidx_firstOccs {α : Type _} [DecidableEq α] (l : List α) :
    (firstOccs l).Pairwise (fun a b => fidx l a < fidx l b) :=
  pairwise_fidx_firstOccsAux l []

theorem rel_of_pairwise_fidx {α : Type _} [DecidableEq α]
    (Q : α → α → Prop) :
    ∀ (s : List α), s.Pairwise Q → ∀ a b, a ∈ s → b ∈ s →
      fidx s a < fidx s b → Q a b := by
  intro s
  induction s with
  | nil => intro _ a b ha; cases ha
  | cons x t ih =>
    intro hp a b ha hb hfid
    obtain ⟨hhead, htail⟩ := List.pairwise_cons.mp hp
    by_cases hax : a = x
    · subst hax
      have hbne : b ≠ a := by
        intro h
        subst h
        simp [fidx_cons_self] at hfid
      have hbmem : b ∈ t := by
        rcases List.mem_cons.mp hb with h | h
        · exact absurd h hbne
        · exact h
      exact hhead b hbmem
    · have hbx : b ≠ x := by
        intro h
        subst h
        rw [fidx_cons_self] at hfid
        omega
      have hamem : a ∈ t := by
        rcases List.mem_cons.mp ha with h | h
        · exact absurd h hax
        · exact h
      have hbmem : b ∈ t := by
        rcases List.mem_cons.mp hb with h | h
        · exact absurd h hbx
        · exact h
      rw [fidx_cons_ne t hax, fidx_cons_ne t hbx] at hfid
      exact ih htail a b hamem hbmem (by omega)

theorem fidx_firstOccs_mono {α : Type _} [DecidableEq α] (l : List α)
    {a b : α} (ha : a ∈ firstOccs l) (hb : b ∈ firstOccs l)
    (h : fidx (firstOccs l) a < fidx (firstOccs l) b) :
    fidx l a < fidx l b :=
  rel_of_pairwise_fidx _ (firstOccs l) (pairwise_fidx_firstOccs l) a b ha hb h

theorem pairwise_orderedInsert_stable (L : List (String × ℕ)) (x : String × ℕ) :
    ∀ s : List (String × ℕ),
      s.Pairwise (fun p q => q.2 < p.2 ∨ (p.2 = q.2 ∧ fidx L p < fidx L q)) →
      (∀ e ∈ s, e.2 ≤ x.2 → (e.2 < x.2 ∨ (x.2 = e.2 ∧ fidx L x < fidx L e))) →
      (List.orderedInsert cntGe x s).Pairwise
        (fun p q => q.2 < p.2 ∨ (p.2 = q.2 ∧ fidx L p < fidx L q)) := by
  intro s
  induction s with
  | nil => intro _ _; simp
  | cons b s' ih =>
    intro hs hR1
    obtain ⟨hhead, htail⟩ := List.pairwise_cons.mp hs
    by_cases hbx : cntGe x b
    · rw [List.orderedInsert, if_pos hbx]
      refine List.pairwise_cons.mpr ⟨?_, hs⟩
      intro e he
      rcases List.mem_cons.mp he with rfl | he'
      · exact hR1 _ (List.mem_cons_self _ _) hbx
      · have hbe := hhead e he'
        have hle : e.2 ≤ b.2 := by
          rcases hbe with h | h
          · exact le_of_lt h
          · exact le_of_eq h.1.symm
        exact hR1 _ (List.mem_cons_of_mem _ he') (le_trans hle hbx)
    · rw [List.orderedInsert, if_neg hbx]
      have hx2 : x.2 < b.2 := not_le.mp hbx
      refine List.pairwise_cons.mpr
        ⟨?_, ih htail (fun e he h2 => hR1 e (List.mem_cons_of_mem _ he) h2)⟩
      intro e he
      have hmem : e = x ∨ e ∈ s' := by
        have := (List.perm_orderedInsert cntGe x s').mem_iff.mp he
        simpa using this
      rcases hmem with rfl | he'
      · exact Or.inl hx2
      · exact hhead e he'

theorem pairwise_insertionSort_stable :
    ∀ l : List (String × ℕ), l.Nodup →
      (List.insertionSort cntGe l).Pairwise
        (fun p q => q.2 < p.2 ∨ (p.2 = q.2 ∧ fidx l p < fidx l q)) := by
  intro l
  induction l with
  | nil => intro _; simp
  | cons x t ih =>
    intro hnd
    obtain ⟨hxnot, hnd'⟩ := List.nodup_cons.mp hnd
    have ihlift : (List.insertionSort cntGe t).Pairwise
        (fun p q => q.2 < p.2 ∨ (p.2 = q.2 ∧ fidx (x :: t) p < fidx (x :: t) q)) := by
      refine (ih hnd').imp_of_mem ?_
      intro a b ha hb hab
      have hamem : a ∈ t := (List.mem_insertionSort cntGe).mp ha
      have hbmem : b ∈ t := (List.mem_insertionSort cntGe).mp hb
      have hane : a ≠ x := fun h => hxnot (h ▸ hamem)
      have hbne : b ≠ x := fun h => hxnot (h ▸ hbmem)
      rcases hab with h | h
      · exact Or.inl h
      · refine Or.inr ⟨h.1, ?_⟩
        rw [fidx_cons_ne t hane, fidx_cons_ne t hbne]
        omega
    rw [List.insertionSort]
    refine pairwise_orderedInsert_stable (x :: t) x _ ihlift ?_
    intro e he h2
    have hemem : e ∈ t := (List.mem_insertionSort cntGe).mp he
    have hene : e ≠ x := fun h => hxnot (h ▸ hemem)
    rcases lt_or_eq_of_le h2 with h | h
    · exact Or.inl h
    · refine Or.inr ⟨h.symm, ?_⟩
      rw [fidx_cons_self, fidx_cons_ne t hene]
      omega

/-! ### Counter lemmas -/

theorem mem_countOccs (values : List String) (p : String × ℕ) :
    p ∈ countOccs values ↔ p.1 ∈ values ∧ p.2 = values.count p.1 := by
  rw [countOccs]
  constructor
  · intro h
    obtain ⟨v, hv, hvp⟩ := List.mem_map.mp h
    have h1 : p.1 = v := by rw [← hvp]
    have h2 : p.2 = values.count v := by rw [← hvp]
    rw [h1, h2]
    exact ⟨(mem_firstOccs v values).mp hv, rfl⟩
  · rintro ⟨h1, h2⟩
    refine List.mem_map.mpr ⟨p.1, (mem_firstOccs _ values).mpr h1, ?_⟩
    exact Prod.ext rfl h2.symm

theorem nodup_countOccs (values : List String) : (countOccs values).Nodup := by
  rw [countOccs]
  refine List.Nodup.map ?_ (nodup_firstOccs values)
  intro a b h
  exact congrArg Prod.fst h

theorem length_countOccs (values : List String) :
    (countOccs values).length = values.toFinset.card := by
  rw [countOccs, List.length_map, ← toFinset_firstOccs,
    List.toFinset_card_of_nodup (nodup_firstOccs values)]

theorem sum_count_firstOccs_str (values : List String) :
    ((firstOccs values).map (fun v => values.count v)).sum = values.length := by
  refine Eq.trans ?_ (sum_countP_firstOccs values)
  congr 1

theorem catBundle_spec (rows : List Record) (col : String)
    (hne : catValues rows col ≠ []) :
    ∃ (m : String) (mc : ℕ) (rest : List (String × ℕ)),
      mostCommon (catValues rows col) = (m, mc) :: rest ∧
      catBundle rows col = ⟨(countOccs (catValues rows col)).length, some m, mc,
        (catValues rows col).length, ((m, mc) :: rest).take 5⟩ := by
  obtain ⟨v, vs, hv⟩ := List.exists_cons_of_ne_nil hne
  have hco : countOccs (v :: vs) ≠ [] := by
    rw [countOccs, firstOccs, firstOccsAux]
    simp
  have hmcne : mostCommon (v :: vs) ≠ [] := by
    intro h
    have := List.length_insertionSort cntGe (countOccs (v :: vs))
    rw [mostCommon] at h
    rw [h] at this
    exact hco (List.length_eq_zero.mp this.symm)
  obtain ⟨⟨m, mc⟩, rest, hmc⟩ := List.exists_cons_of_ne_nil hmcne
  refine ⟨m, mc, rest, by rw [hv, hmc], ?_⟩
  rw [catBundle, hv]
  simp only [hmc]

theorem fidx_countOccs_to_values (V : List String) {p q : String × ℕ}
    (hp : p ∈ countOccs V) (hq : q ∈ countOccs V)
    (h : fidx (countOccs V) p < fidx (countOccs V) q) :
    fidx V p.1 < fidx V q.1 := by
  obtain ⟨hp1, hp2⟩ := (mem_countOccs V p).mp hp
  obtain ⟨hq1, hq2⟩ := (mem_countOccs V q).mp hq
  have hinj : Function.Injective (fun w : String => (w, V.count w)) := by
    intro a b hab
    exact congrArg Prod.fst hab
  have hpf : p = (fun w : String => (w, V.count w)) p.1 := Prod.ext rfl hp2
  have hqf : q = (fun w : String => (w, V.count w)) q.1 := Prod.ext rfl hq2
  rw [countOccs, hpf, hqf, fidx_map_inj hinj, fidx_map_inj hinj] at h
  exact fidx_firstOccs_mono V ((mem_firstOccs _ _).mpr hp1) ((mem_firstOccs _ _).mpr hq1) h

/-- C5: for every categorical column with at least one non-blank value, the
bundle reports the distinct-value count, the most frequent value and its
count with ties broken by first appearance, the non-blank total, and a
`top_5_values` list of at most five `(value, frequency)` pairs in
descending frequency order with the same tie-break, every listed entry
ranking at least as high as every omitted value (higher frequency, or
equal frequency and earlier first appearance) — so they are the most
frequent values.  On the concrete
column `["red", "blue", "red", "red"]` this yields
`unique_values = 2, mode = "red", mode_count = 3, total_count = 4,
top_5_values = {"red": 3, "blue": 1}`. -/
theorem claim_C5 (rows : List Record) (cols : List String) (col : String)
    (hcol : col ∈ cols) (hne : catValues rows col ≠ []) :
    ∃ b : CatBundle,
      (compute_categorical_stats rows cols).lookup col = some b ∧
      b.unique_values = (catValues rows col).toFinset.card ∧
      b.total_count = (catValues rows col).length ∧
      (∃ m, b.mode = some m ∧ m ∈ catValues rows col ∧
        b.mode_count = (catValues rows col).count m ∧
        (∀ v ∈ catValues rows col,
          (catValues rows col).count v ≤ b.mode_count) ∧
        (∀ v ∈ catValues rows col,
          (catValues rows col).count v = b.mode_count →
            fidx (catValues rows col) m ≤ fidx (catValues rows col) v)) ∧
      b.top_5_values.length = min 5 b.unique_values ∧
      (∀ p ∈ b.top_5_values, p.1 ∈ catValues rows col ∧
        p.2 = (catValues rows col).count p.1) ∧
      b.top_5_values.Pairwise (fun p q => q.2 < p.2 ∨
        (p.2 = q.2 ∧ fidx (catValues rows col) p.1 < fidx (catValues rows col) q.1)) ∧
      (∀ v ∈ catValues rows col, (∀ p ∈ b.top_5_values, p.1 ≠ v) →
        ∀ p ∈ b.top_5_values,
          (catValues rows col).count v < p.2 ∨
          (p.2 = (catValues rows col).count v ∧
            fidx (catValues rows col) p.1 < fidx (catValues rows col) v)) ∧
      (compute_categorical_stats
          [[("c", "red")], [("c", "blue")], [("c", "red")], [("c", "red")]]
          ["c"]).lookup ("c")
        = some ⟨2, some ("red"), 3, 4, [("red", 3), ("blue", 1)]⟩ := by
  obtain ⟨m, mc, rest, hmc, hbundle⟩ := catBundle_spec rows col hne
  have hperm : ((m, mc) :: rest).Perm (countOccs (catValues rows col)) := by
    rw [← hmc]
    exact List.perm_insertionSort cntGe _
  have hstab : ((m, mc) :: rest).Pairwise (fun p q => q.2 < p.2 ∨
      (p.2 = q.2 ∧ fidx (countOccs (catValues rows col)) p
        < fidx (countOccs (catValues rows col)) q)) := by
    rw [← hmc]
    exact pairwise_insertionSort_stable _ (nodup_countOccs _)
  have hheadmem : (m, mc) ∈ countOccs (catValues rows col) :=
    hperm.subset (List.mem_cons_self _ _)
  obtain ⟨hmV, hmcV⟩ := (mem_countOccs _ _).mp hheadmem
  have hmax : ∀ v ∈ catValues rows col,
      (catValues rows col).count v ≤ mc := by
    intro v hv
    have hmem : (v, (catValues rows col).count v) ∈ (m, mc) :: rest :=
      hperm.mem_iff.mpr ((mem_countOccs _ _).mpr ⟨hv, rfl⟩)
    rcases List.mem_cons.mp hmem with heq | hrest
    · have : (catValues rows col).count v = mc := congrArg Prod.snd heq
      omega
    · have hrel := (List.pairwise_cons.mp hstab).1 _ hrest
      rcases hrel with h | h
      · exact le_of_lt h
      · exact le_of_eq h.1.symm
  have htie : ∀ v ∈ catValues rows col,
      (catValues rows col).count v = mc →
        fidx (catValues rows col) m ≤ fidx (catValues rows col) v := by
    intro v hv hcnt
    by_cases hvm : v = m
    · subst hvm; exact le_refl _
    · have hmem : (v, (catValues rows col).count v) ∈ (m, mc) :: rest :=
        hperm.mem_iff.mpr ((mem_countOccs _ _).mpr ⟨hv, rfl⟩)
      rcases List.mem_cons.mp hmem with heq | hrest
      · exact absurd (congrArg Prod.fst heq) hvm
      · have hrel := (List.pairwise_cons.mp hstab).1 _ hrest
        rcases hrel with h | h
        · omega
        · refine le_of_lt ?_
          have := fidx_countOccs_to_values (catValues rows col) hheadmem
            (hperm.subset (List.mem_cons_of_mem _ hrest)) h.2
          simpa using this
  refine ⟨catBundle rows col, lookup_map_self _ cols col hcol, ?_, ?_, ?_, ?_, ?_, ?_, ?_,
    by decide⟩
  · rw [hbundle]
    exact length_countOccs _
  · rw [hbundle]
  · refine ⟨m, by rw [hbundle], hmV, by rw [hbundle]; exact hmcV.symm ▸ rfl, ?_, ?_⟩
    · intro v hv
      rw [hbundle]
      exact hmax v hv
    · intro v hv hcnt
      rw [hbundle] at hcnt
      exact htie v hv hcnt
  · rw [hbundle]
    show (((m, mc) :: rest).take 5).length = min 5 (countOccs (catValues rows col)).length
    rw [List.length_take, hperm.length_eq]
  · intro p hp
    rw [hbundle] at hp
    have hp' : p ∈ (m, mc) :: rest := List.mem_of_mem_take hp
    exact (mem_countOccs _ _).mp (hperm.mem_iff.mp hp')
  · rw [hbundle]
    show (((m, mc) :: rest).take 5).Pairwise _
    have htake := List.Pairwise.sublist (List.take_sublist 5 ((m, mc) :: rest)) hstab
    refine htake.imp_of_mem ?_
    intro p q hp hq hpq
    have hp' : p ∈ countOccs (catValues rows col) :=
      hperm.mem_iff.mp (List.mem_of_mem_take hp)
    have hq' : q ∈ countOccs (catValues rows col) :=
      hperm.mem_iff.mp (List.mem_of_mem_take hq)
    rcases hpq with h | h
    · exact Or.inl h
    · exact Or.inr ⟨h.1, fidx_countOccs_to_values _ hp' hq' h.2⟩
  · intro v hv hnot p hp
    rw [hbundle] at hnot hp
    have hvpair : (v, (catValues rows col).count v) ∈ (m, mc) :: rest :=
      hperm.mem_iff.mpr ((mem_countOccs _ _).mpr ⟨hv, rfl⟩)
    have hvnot5 : (v, (catValues rows col).count v) ∉ ((m, mc) :: rest).take 5 := by
      intro h
      exact hnot _ h rfl
    have hdropmem : (v, (catValues rows col).count v) ∈ ((m, mc) :: rest).drop 5 := by
      have hsplitmem : (v, (catValues rows col).count v)
          ∈ ((m, mc) :: rest).take 5 ++ ((m, mc) :: rest).drop 5 := by
        rw [List.take_append_drop]
        exact hvpair
      rcases List.mem_append.mp hsplitmem with h | h
      · exact absurd h hvnot5
      · exact h
    have hstab' : (((m, mc) :: rest).take 5 ++ ((m, mc) :: rest).drop 5).Pairwise
        (fun p q => q.2 < p.2 ∨ (p.2 = q.2 ∧ fidx (countOccs (catValues rows col)) p
          < fidx (countOccs (catValues rows col)) q)) := by
      rw [List.take_append_drop]
      exact hstab
    have hcross := (List.pairwise_append.mp hstab').2.2 p hp _ hdropmem
    have hpmem : p ∈ countOccs (catValues rows col) :=
      hperm.mem_iff.mp (List.mem_of_mem_take hp)
    have hvmemco : (v, (catValues rows col).count v) ∈ countOccs (catValues rows col) :=
      hperm.mem_iff.mp hvpair
    rcases hcross with h | h
    · exact Or.inl h
    · refine Or.inr ⟨h.1, ?_⟩
      have hlt := fidx_countOccs_to_values _ hpmem hvmemco h.2
      simpa using hlt

/-- Witness for C5 at the Scenario C table (one column `c` with values
red, blue, red, red), discharging both hypotheses by computation. -/
theorem claim_C5_witness :
    ((("c" : String) ∈ ["c"]) ∧ catValues [[("c", "red")], [("c", "blue")], [("c", "red")], [("c", "red")]] ("c") ≠ []) ∧
    (∃ b : CatBundle,
      (compute_categorical_stats [[("c", "red")], [("c", "blue")], [("c", "red")], [("c", "red")]] ["c"]).lookup ("c") = some b ∧
      b.unique_values = (catValues [[("c", "red")], [("c", "blue")], [("c", "red")], [("c", "red")]] ("c")).toFinset.card ∧
      b.total_count = (catValues [[("c", "red")], [("c", "blue")], [("c", "red")], [("c", "red")]] ("c")).length ∧
      (∃ m, b.mode = some m ∧ m ∈ catValues [[("c", "red")], [("c", "blue")], [("c", "red")], [("c", "red")]] ("c") ∧
        b.mode_count = (catValues [[("c", "red")], [("c", "blue")], [("c", "red")], [("c", "red")]] ("c")).count m ∧
        (∀ v ∈ catValues [[("c", "red")], [("c", "blue")], [("c", "red")], [("c", "red")]] ("c"),
          (catValues [[("c", "red")], [("c", "blue")], [("c", "red")], [("c", "red")]] ("c")).count v ≤ b.mode_count) ∧
        (∀ v ∈ catValues [[("c", "red")], [("c", "blue")], [("c", "red")], [("c", "red")]] ("c"),
          (catValues [[("c", "red")], [("c", "blue")], [("c", "red")], [("c", "red")]] ("c")).count v = b.mode_count →
            fidx (catValues [[("c", "red")], [("c", "blue")], [("c", "red")], [("c", "red")]] ("c")) m ≤ fidx (catValues [[("c", "red")], [("c", "blue")], [("c", "red")], [("c", "red")]] ("c")) v)) ∧
      b.top_5_values.length = min 5 b.unique_values ∧
      (∀ p ∈ b.top_5_values, p.1 ∈ catValues [[("c", "red")], [("c", "blue")], [("c", "red")], [("c", "red")]] ("c") ∧
        p.2 = (catValues [[("c", "red")], [("c", "blue")], [("c", "red")], [("c", "red")]] ("c")).count p.1) ∧
      b.top_5_values.Pairwise (fun p q => q.2 < p.2 ∨
        (p.2 = q.2 ∧ fidx (catValues [[("c", "red")], [("c", "blue")], [("c", "red")], [("c", "red")]] ("c")) p.1 < fidx (catValues [[("c", "red")], [("c", "blue")], [("c", "red")], [("c", "red")]] ("c")) q.1)) ∧
      (∀ v ∈ catValues [[("c", "red")], [("c", "blue")], [("c", "red")], [("c", "red")]] ("c"), (∀ p ∈ b.top_5_values, p.1 ≠ v) →
        ∀ p ∈ b.top_5_values,
          (catValues [[("c", "red")], [("c", "blue")], [("c", "red")], [("c", "red")]] ("c")).count v < p.2 ∨
          (p.2 = (catValues [[("c", "red")], [("c", "blue")], [("c", "red")], [("c", "red")]] ("c")).count v ∧
            fidx (catValues [[("c", "red")], [("c", "blue")], [("c", "red")], [("c", "red")]] ("c")) p.1 < fidx (catValues [[("c", "red")], [("c", "blue")], [("c", "red")], [("c", "red")]] ("c")) v)) ∧
      (compute_categorical_stats
          [[("c", "red")], [("c", "blue")], [("c", "red")], [("c", "red")]]
          ["c"]).lookup ("c")
        = some ⟨2, some ("red"), 3, 4, [("red", 3), ("blue", 1)]⟩) :=
  ⟨⟨by decide, by decide⟩,
   claim_C5 [[("c", "red")], [("c", "blue")], [("c", "red")], [("c", "red")]] ["c"] ("c") (by decide) (by decide)⟩

/-- C10: in every categorical bundle with positive `total_count`, the
fields are mutually consistent — `top_5_values` starts with
`(mode, mode_count)`, has exactly `min 5 unique_values` entries, its
frequencies are non-increasing and at least 1, and their sum is at most
`total_count`. -/
theorem claim_C10 (rows : List Record) (cols : List String) (col : String)
    (hcol : col ∈ cols) :
    ∃ b : CatBundle,
      (compute_categorical_stats rows cols).lookup col = some b ∧
      (0 < b.total_count →
        (∃ m rest5, b.mode = some m ∧ b.top_5_values = (m, b.mode_count) :: rest5) ∧
        b.top_5_values.length = min 5 b.unique_values ∧
        b.top_5_values.Pairwise (fun p q => q.2 ≤ p.2) ∧
        (∀ p ∈ b.top_5_values, 1 ≤ p.2) ∧
        ((b.top_5_values.map (fun p => p.2)).sum ≤ b.total_count)) := by
  refine ⟨catBundle rows col, lookup_map_self _ cols col hcol, ?_⟩
  intro hpos
  by_cases hne : catValues rows col = []
  · rw [catBundle, hne] at hpos
    simp at hpos
  obtain ⟨m, mc, rest, hmc, hbundle⟩ := catBundle_spec rows col hne
  have hperm : ((m, mc) :: rest).Perm (countOccs (catValues rows col)) := by
    rw [← hmc]
    exact List.perm_insertionSort cntGe _
  have hsorted : ((m, mc) :: rest).Pairwise cntGe := by
    rw [← hmc]
    exact List.sorted_insertionSort cntGe _
  refine ⟨?_, ?_, ?_, ?_, ?_⟩
  · refine ⟨m, rest.take 4, by rw [hbundle], ?_⟩
    rw [hbundle]
    rfl
  · rw [hbundle]
    show (((m, mc) :: rest).take 5).length = min 5 (countOccs (catValues rows col)).length
    rw [List.length_take, hperm.length_eq]
  · rw [hbundle]
    exact List.Pairwise.sublist (List.take_sublist 5 ((m, mc) :: rest)) hsorted
  · intro p hp
    rw [hbundle] at hp
    have hp' : p ∈ countOccs (catValues rows col) :=
      hperm.mem_iff.mp (List.mem_of_mem_take hp)
    obtain ⟨hp1, hp2⟩ := (mem_countOccs _ _).mp hp'
    rw [hp2]
    exact List.count_pos_iff.mpr hp1
  · rw [hbundle]
    have hsplit : (((m, mc) :: rest).map (fun p => p.2)).sum
        = ((((m, mc) :: rest).take 5).map (fun p => p.2)).sum
          + ((((m, mc) :: rest).drop 5).map (fun p => p.2)).sum := by
      rw [← List.sum_append, ← List.map_append, List.take_append_drop]
    have hle : ((((m, mc) :: rest).take 5).map (fun p => p.2)).sum
        ≤ (((m, mc) :: rest).map (fun p => p.2)).sum := by
      omega
    have hsum : (((m, mc) :: rest).map (fun p => p.2)).sum
        = (catValues rows col).length := by
      rw [(hperm.map (fun p => p.2)).sum_eq, countOccs, List.map_map]
      exact sum_count_firstOccs_str _
    show ((((m, mc) :: rest).take 5).map (fun p => p.2)).sum
        ≤ (catValues rows col).length
    omega

/-- Witness for C10 at the Scenario C table. -/
theorem claim_C10_witness :
    (("c" : String) ∈ ["c"]) ∧
    ∃ b : CatBundle,
      (compute_categorical_stats
          [[("c", "red")], [("c", "blue")], [("c", "red")], [("c", "red")]]
          ["c"]).lookup ("c") = some b ∧
      (0 < b.total_count →
        (∃ m rest5, b.mode = some m ∧ b.top_5_values = (m, b.mode_count) :: rest5) ∧
        b.top_5_values.length = min 5 b.unique_values ∧
        b.top_5_values.Pairwise (fun p q => q.2 ≤ p.2) ∧
        (∀ p ∈ b.top_5_values, 1 ≤ p.2) ∧
        ((b.top_5_values.map (fun p => p.2)).sum ≤ b.total_count)) :=
  ⟨by decide,
   claim_C10 [[("c", "red")], [("c", "blue")], [("c", "red")], [("c", "red")]]
     ["c"] ("c") (by decide)⟩

/-! ### Rounding and square-root approximation lemmas -/

theorem rndHEInt_close (x : ℚ) : |(rndHEInt x : ℚ) - x| ≤ 1 / 2 := by
  have h1 : (⌊x⌋ : ℚ) ≤ x := Int.floor_le x
  have h2 : x < ⌊x⌋ + 1 := Int.lt_floor_add_one x
  rw [rndHEInt]
  by_cases c1 : x - ⌊x⌋ < 1 / 2
  · rw [if_pos c1, abs_le]
    constructor <;> linarith
  · rw [if_neg c1]
    by_cases c2 : (1 : ℚ) / 2 < x - ⌊x⌋
    · rw [if_pos c2, abs_le]
      push_cast
      constructor <;> linarith
    · have heq : x - ⌊x⌋ = 1 / 2 := le_antisymm (not_lt.mp c2) (not_lt.mp c1)
      rw [if_neg c2]
      by_cases c3 : ⌊x⌋ % 2 = 0
      · rw [if_pos c3, abs_le]
        constructor <;> linarith
      · rw [if_neg c3, abs_le]
        push_cast
        constructor <;> linarith

theorem round4_close (x : ℚ) : |round4 x - x| ≤ 1 / 20000 := by
  have h := rndHEInt_close (x * 10 ^ 4)
  rw [round4]
  have hcalc : (rndHEInt (x * 10 ^ 4) : ℚ) / 10 ^ 4 - x
      = ((rndHEInt (x * 10 ^ 4) : ℚ) - x * 10 ^ 4) / 10 ^ 4 := by ring
  rw [hcalc, abs_div]
  have hpos : |(10 : ℚ) ^ 4| = 10 ^ 4 := abs_of_pos (by norm_num)
  rw [hpos]
  rw [div_le_iff (by norm_num : (0 : ℚ) < 10 ^ 4)]
  calc |(rndHEInt (x * 10 ^ 4) : ℚ) - x * 10 ^ 4| ≤ 1 / 2 := h
    _ = 1 / 20000 * 10 ^ 4 := by norm_num

theorem round4_int (x : ℚ) : ∃ z : ℤ, round4 x = (z : ℚ) / 10 ^ 4 :=
  ⟨rndHEInt (x * 10 ^ 4), rfl⟩

theorem foldl_min_le_init (v : ℚ) : ∀ vs : List ℚ, vs.foldl Min.min v ≤ v := by
  intro vs
  induction vs generalizing v with
  | nil => exact le_refl v
  | cons w ws ih => exact le_trans (ih (Min.min v w)) (min_le_left v w)

theorem foldl_min_le_mem (v x : ℚ) : ∀ vs : List ℚ, x ∈ vs → vs.foldl Min.min v ≤ x := by
  intro vs
  induction vs generalizing v with
  | nil => intro h; cases h
  | cons w ws ih =>
    intro hx
    rcases List.mem_cons.mp hx with rfl | hx'
    · exact le_trans (foldl_min_le_init _ ws) (min_le_right v x)
    · exact ih (Min.min v w) hx'

theorem foldl_min_mem (v : ℚ) : ∀ vs : List ℚ, vs.foldl Min.min v ∈ v :: vs := by
  intro vs
  induction vs generalizing v with
  | nil => exact List.mem_cons_self v []
  | cons w ws ih =>
    have h := ih (Min.min v w)
    rcases List.mem_cons.mp h with heq | hmem
    · rcases min_choice v w with hc | hc
      · rw [List.foldl_cons, heq, hc]
        exact List.mem_cons_self _ _
      · rw [List.foldl_cons, heq, hc]
        exact List.mem_cons_of_mem _ (List.mem_cons_self _ _)
    · exact List.mem_cons_of_mem _ (List.mem_cons_of_mem _ hmem)

theorem foldl_max_init_le (v : ℚ) : ∀ vs : List ℚ, v ≤ vs.foldl Max.max v := by
  intro vs
  induction vs generalizing v with
  | nil => exact le_refl v
  | cons w ws ih => exact le_trans (le_max_left v w) (ih (Max.max v w))

theorem foldl_max_mem_le (v x : ℚ) : ∀ vs : List ℚ, x ∈ vs → x ≤ vs.foldl Max.max v := by
  intro vs
  induction vs generalizing v with
  | nil => intro h; cases h
  | cons w ws ih =>
    intro hx
    rcases List.mem_cons.mp hx with rfl | hx'
    · exact le_trans (le_max_right v x) (foldl_max_init_le _ ws)
    · exact ih (Max.max v w) hx'

theorem foldl_max_mem (v : ℚ) : ∀ vs : List ℚ, vs.foldl Max.max v ∈ v :: vs := by
  intro vs
  induction vs generalizing v with
  | nil => exact List.mem_cons_self v []
  | cons w ws ih =>
    have h := ih (Max.max v w)
    rcases List.mem_cons.mp h with heq | hmem
    · rcases max_choice v w with hc | hc
      · rw [List.foldl_cons, heq, hc]
        exact List.mem_cons_self _ _
      · rw [List.foldl_cons, heq, hc]
        exact List.mem_cons_of_mem _ (List.mem_cons_self _ _)
    · exact List.mem_cons_of_mem _ (List.mem_cons_of_mem _ hmem)

theorem rsqrt_choice (q : ℚ) (f : ℕ)
    (hlow : (f : ℝ) ≤ Real.sqrt ((q : ℚ) : ℝ))
    (hhigh : Real.sqrt ((q : ℚ) : ℝ) < (f : ℝ) + 1) :
    |(((if 4 * q < ((2 * f + 1 : ℕ) : ℚ) ^ 2 then f
        else if ((2 * f + 1 : ℕ) : ℚ) ^ 2 < 4 * q then f + 1
        else if f % 2 = 0 then f else f + 1) : ℕ) : ℝ)
      - Real.sqrt ((q : ℚ) : ℝ)| ≤ 1 / 2 := by
  by_cases c1 : 4 * q < ((2 * f + 1 : ℕ) : ℚ) ^ 2
  · rw [if_pos c1]
    have c1R : (4 : ℝ) * ((q : ℚ) : ℝ) < ((2 * (f : ℝ) + 1)) ^ 2 := by
      have := (Rat.cast_lt (K := ℝ)).mpr c1
      push_cast at this
      linarith
    have hup : Real.sqrt ((q : ℚ) : ℝ) < (f : ℝ) + 1 / 2 := by
      have hpos : (0 : ℝ) < (f : ℝ) + 1 / 2 := by positivity
      rw [show ((f : ℝ) + 1 / 2) = (2 * (f : ℝ) + 1) / 2 by ring] at hpos ⊢
      rw [Real.sqrt_lt' hpos]
      nlinarith
    rw [abs_le]
    constructor <;> [linarith; linarith]
  · rw [if_neg c1]
    by_cases c2 : ((2 * f + 1 : ℕ) : ℚ) ^ 2 < 4 * q
    · rw [if_pos c2]
      have c2R : ((2 * (f : ℝ) + 1)) ^ 2 < (4 : ℝ) * ((q : ℚ) : ℝ) := by
        have := (Rat.cast_lt (K := ℝ)).mpr c2
        push_cast at this
        linarith
      have hdn : (f : ℝ) + 1 / 2 < Real.sqrt ((q : ℚ) : ℝ) := by
        have hnn : (0 : ℝ) ≤ (2 * (f : ℝ) + 1) / 2 := by positivity
        have := (Real.lt_sqrt hnn (y := ((q : ℚ) : ℝ))).mpr (by nlinarith)
        linarith
      rw [abs_le]
      push_cast
      constructor <;> [linarith; linarith]
    · have heq : ((2 * f + 1 : ℕ) : ℚ) ^ 2 = 4 * q :=
        le_antisymm (not_lt.mp c1) (not_lt.mp c2)
      have heqR : (2 * (f : ℝ) + 1) ^ 2 = 4 * ((q : ℚ) : ℝ) := by
        have := congrArg (fun z : ℚ => (z : ℝ)) heq
        push_cast at this
        linarith
      have hsq : Real.sqrt ((q : ℚ) : ℝ) = (f : ℝ) + 1 / 2 := by
        rw [show ((q : ℚ) : ℝ) = ((f : ℝ) + 1 / 2) ^ 2 by nlinarith]
        exact Real.sqrt_sq (by positivity)
      rw [if_neg c2]
      by_cases c3 : f % 2 = 0
      · rw [if_pos c3, hsq, abs_le]
        constructor <;> [linarith; linarith]
      · rw [if_neg c3, hsq, abs_le]
        push_cast
        constructor <;> [linarith; linarith]

theorem rsqrtHE_close (q : ℚ) (hq : 0 ≤ q) :
    |((rsqrtHE q : ℕ) : ℝ) - Real.sqrt ((q : ℚ) : ℝ)| ≤ 1 / 2 := by
  have hnum : (0 : ℤ) ≤ q.num := Rat.num_nonneg.mpr hq
  have hbpos : 0 < q.den := q.pos
  have hqa : ((q.num.toNat : ℚ)) / (q.den : ℚ) = q := by
    have h1 : ((q.num.toNat : ℚ)) = (q.num : ℚ) := by
      exact_mod_cast congrArg (fun z : ℤ => (z : ℚ)) (Int.toNat_of_nonneg hnum)
    rw [h1, Rat.num_div_den]
  have hbR : (0 : ℝ) < (q.den : ℝ) := by exact_mod_cast hbpos
  have hqR : ((q : ℚ) : ℝ)
      = ((q.num.toNat * q.den : ℕ) : ℝ) / ((q.den : ℕ) : ℝ) ^ 2 := by
    conv_lhs => rw [← hqa]
    push_cast
    field_simp
    ring
  have hsqrt : Real.sqrt ((q : ℚ) : ℝ)
      = Real.sqrt ((q.num.toNat * q.den : ℕ) : ℝ) / (q.den : ℝ) := by
    rw [hqR, Real.sqrt_div (by positivity), Real.sqrt_sq hbR.le]
  have hsl : ((Nat.sqrt (q.num.toNat * q.den) : ℕ) : ℝ)
      ≤ Real.sqrt ((q.num.toNat * q.den : ℕ) : ℝ) := Real.nat_sqrt_le_real_sqrt
  have hsu : Real.sqrt ((q.num.toNat * q.den : ℕ) : ℝ)
      < (Nat.sqrt (q.num.toNat * q.den) : ℝ) + 1 := Real.real_sqrt_lt_nat_sqrt_succ
  have hflow : ((Nat.sqrt (q.num.toNat * q.den) / q.den : ℕ) : ℝ)
      ≤ Real.sqrt ((q : ℚ) : ℝ) := by
    rw [hsqrt, le_div_iff hbR]
    have h1 : ((Nat.sqrt (q.num.toNat * q.den) / q.den * q.den : ℕ) : ℝ)
        ≤ ((Nat.sqrt (q.num.toNat * q.den) : ℕ) : ℝ) := by
      exact_mod_cast Nat.div_mul_le_self (Nat.sqrt (q.num.toNat * q.den)) q.den
    calc ((Nat.sqrt (q.num.toNat * q.den) / q.den : ℕ) : ℝ) * (q.den : ℝ)
        = ((Nat.sqrt (q.num.toNat * q.den) / q.den * q.den : ℕ) : ℝ) := by push_cast; ring
      _ ≤ ((Nat.sqrt (q.num.toNat * q.den) : ℕ) : ℝ) := h1
      _ ≤ Real.sqrt ((q.num.toNat * q.den : ℕ) : ℝ) := hsl
  have hfhigh : Real.sqrt ((q : ℚ) : ℝ)
      < ((Nat.sqrt (q.num.toNat * q.den) / q.den : ℕ) : ℝ) + 1 := by
    rw [hsqrt, div_lt_iff hbR]
    have h2 : Nat.sqrt (q.num.toNat * q.den)
        < (Nat.sqrt (q.num.toNat * q.den) / q.den + 1) * q.den :=
      (Nat.div_lt_iff_lt_mul hbpos).mp (Nat.lt_succ_self _)
    have h3 : ((Nat.sqrt (q.num.toNat * q.den) : ℕ) : ℝ) + 1
        ≤ ((Nat.sqrt (q.num.toNat * q.den) / q.den + 1) * q.den : ℕ) := by
      exact_mod_cast h2
    calc Real.sqrt ((q.num.toNat * q.den : ℕ) : ℝ)
        < (Nat.sqrt (q.num.toNat * q.den) : ℝ) + 1 := hsu
      _ ≤ ((Nat.sqrt (q.num.toNat * q.den) / q.den + 1) * q.den : ℕ) := h3
      _ = (((Nat.sqrt (q.num.toNat * q.den) / q.den : ℕ) : ℝ) + 1) * (q.den : ℝ) := by
          push_cast; ring
  exact rsqrt_choice q (Nat.sqrt (q.num.toNat * q.den) / q.den) hflow hfhigh

theorem svarQ_nonneg (vals : List ℚ) (h : 1 < vals.length) : 0 ≤ svarQ vals := by
  rw [svarQ]
  apply div_nonneg
  · apply List.sum_nonneg
    intro x hx
    obtain ⟨y, hy, rfl⟩ := List.mem_map.mp hx
    positivity
  · have h1 : (1 : ℚ) < vals.length := by exact_mod_cast h
    linarith

theorem stdev4_close (vals : List ℚ) (h : 1 < vals.length) :
    |((stdev4 vals : ℚ) : ℝ) - Real.sqrt ((svarQ vals : ℚ) : ℝ)| ≤ 1 / 20000 := by
  have hsv : 0 ≤ svarQ vals := svarQ_nonneg vals h
  have hV : (0 : ℚ) ≤ svarQ vals * 10 ^ 8 := by positivity
  have hb := rsqrtHE_close (svarQ vals * 10 ^ 8) hV
  have hsplit : Real.sqrt ((svarQ vals * 10 ^ 8 : ℚ) : ℝ)
      = Real.sqrt ((svarQ vals : ℚ) : ℝ) * 10 ^ 4 := by
    have h1 : ((svarQ vals * 10 ^ 8 : ℚ) : ℝ)
        = ((svarQ vals : ℚ) : ℝ) * ((10 : ℝ) ^ 4) ^ 2 := by
      push_cast
      ring
    rw [h1, Real.sqrt_mul (by exact_mod_cast hsv), Real.sqrt_sq (by positivity)]
  have hcalc : ((stdev4 vals : ℚ) : ℝ) - Real.sqrt ((svarQ vals : ℚ) : ℝ)
      = (((rsqrtHE (svarQ vals * 10 ^ 8) : ℕ) : ℝ)
          - Real.sqrt ((svarQ vals * 10 ^ 8 : ℚ) : ℝ)) / 10 ^ 4 := by
    rw [stdev4, hsplit]
    push_cast
    ring
  rw [hcalc, abs_div, abs_of_pos (show (0 : ℝ) < 10 ^ 4 by norm_num),
    div_le_iff (show (0 : ℝ) < 10 ^ 4 by norm_num)]
  calc |((rsqrtHE (svarQ vals * 10 ^ 8) : ℕ) : ℝ)
      - Real.sqrt ((svarQ vals * 10 ^ 8 : ℚ) : ℝ)| ≤ 1 / 2 := hb
    _ = 1 / 20000 * 10 ^ 4 := by norm_num

/-- C2: for every numeric column with a non-empty collected value list, the
bundle holds: `count` = list length; `mean` = the arithmetic mean rounded
to 4 decimal places (an exact multiple of `10⁻⁴` within `1/2·10⁻⁴` of the
mean); `median` = the standard median (middle of a sorted permutation,
average of the two middle values for even length) rounded the same way;
`min`/`max` = the unrounded extrema; `std_dev` = `0` for a single value
else the sample standard deviation (square root of the divisor-`(n-1)`
variance) rounded to 4 decimal places.  On Scenario A's table, column
`spend` yields `count = 2, mean = 15, median = 15, min = 10, max = 20,
std_dev = 7.0711`. -/
theorem claim_C2 (rows : List Record) (cols : List String) (col : String)
    (hcol : col ∈ cols) (hne : numValues rows col ≠ []) :
    ∃ b : NumBundle,
      (compute_numeric_stats rows cols).lookup col = some b ∧
      b.count = (numValues rows col).length ∧
      (∃ mv, b.mean = some mv ∧ (∃ z : ℤ, mv = (z : ℚ) / 10 ^ 4) ∧
        |mv - (numValues rows col).sum / ((numValues rows col).length : ℚ)|
          ≤ 1 / 20000) ∧
      (∃ (md : ℚ) (s : List ℚ), b.median = some md ∧ s.Perm (numValues rows col) ∧
        s.Sorted (· ≤ ·) ∧ (∃ z : ℤ, md = (z : ℚ) / 10 ^ 4) ∧
        |md - (if s.length % 2 = 1 then s.getD (s.length / 2) 0
               else (s.getD (s.length / 2 - 1) 0 + s.getD (s.length / 2) 0) / 2)|
          ≤ 1 / 20000) ∧
      (∃ mn, b.min = some mn ∧ mn ∈ numValues rows col ∧
        ∀ x ∈ numValues rows col, mn ≤ x) ∧
      (∃ mx, b.max = some mx ∧ mx ∈ numValues rows col ∧
        ∀ x ∈ numValues rows col, x ≤ mx) ∧
      ((numValues rows col).length = 1 → b.std_dev = some 0) ∧
      (1 < (numValues rows col).length →
        ∃ sd, b.std_dev = some sd ∧
          |((sd : ℚ) : ℝ) - Real.sqrt ((svarQ (numValues rows col) : ℚ) : ℝ)|
            ≤ 1 / 20000 ∧
          svarQ (numValues rows col) =
            ((numValues rows col).map (fun x =>
              (x - (numValues rows col).sum / ((numValues rows col).length : ℚ)) ^ 2)).sum
              / (((numValues rows col).length : ℚ) - 1)) ∧
      (compute_numeric_stats
          [[("page", "1"), ("ad", "a"), ("spend", "10")],
           [("page", "1"), ("ad", "a"), ("spend", "20")],
           [("page", "2"), ("ad", "b"), ("spend", "")]] ["spend"]).lookup ("spend")
        = some ⟨2, some 15, some 15, some 10, some 20, some (70711 / 10 ^ 4)⟩ := by
  obtain ⟨v, vs, hvv⟩ := List.exists_cons_of_ne_nil hne
  have hbundle : numBundle rows col =
      { count := (v :: vs).length
        mean := some (round4 (meanQ (v :: vs)))
        median := some (round4 (medianQ (v :: vs)))
        min := some (vs.foldl Min.min v)
        max := some (vs.foldl Max.max v)
        std_dev := some (if 1 < (v :: vs).length then stdev4 (v :: vs) else 0) } := by
    simp only [numBundle, hvv]
  refine ⟨numBundle rows col, lookup_map_self _ cols col hcol, ?_, ?_, ?_, ?_, ?_, ?_, ?_, ?_⟩
  · rw [hbundle, hvv]
  · refine ⟨round4 (meanQ (v :: vs)), by rw [hbundle], round4_int _, ?_⟩
    rw [hvv]
    exact round4_close (meanQ (v :: vs))
  · refine ⟨round4 (medianQ (v :: vs)), List.insertionSort (· ≤ ·) (v :: vs),
      by rw [hbundle], ?_, List.sorted_insertionSort _ _, round4_int _, ?_⟩
    · rw [hvv]
      exact List.perm_insertionSort _ _
    · exact round4_close (medianQ (v :: vs))
  · refine ⟨vs.foldl Min.min v, by rw [hbundle], ?_, ?_⟩
    · rw [hvv]
      exact foldl_min_mem v vs
    · intro x hx
      rw [hvv] at hx
      rcases List.mem_cons.mp hx with rfl | hx'
      · exact foldl_min_le_init x vs
      · exact foldl_min_le_mem v x vs hx'
  · refine ⟨vs.foldl Max.max v, by rw [hbundle], ?_, ?_⟩
    · rw [hvv]
      exact foldl_max_mem v vs
    · intro x hx
      rw [hvv] at hx
      rcases List.mem_cons.mp hx with rfl | hx'
      · exact foldl_max_init_le x vs
      · exact foldl_max_mem_le v x vs hx'
  · intro h1
    rw [hvv] at h1
    rw [hbundle]
    have hnot : ¬(1 < (v :: vs).length) := by omega
    rw [if_neg hnot]
  · intro hgt
    rw [hvv] at hgt
    refine ⟨stdev4 (v :: vs), ?_, ?_, ?_⟩
    · rw [hbundle, if_pos hgt]
    · rw [hvv]
      exact stdev4_close (v :: vs) hgt
    · rfl
  · have hv10 : numValues [[("page", "1"), ("ad", "a"), ("spend", "10")],
        [("page", "1"), ("ad", "a"), ("spend", "20")],
        [("page", "2"), ("ad", "b"), ("spend", "")]] ("spend") = [10, 20] := by
      have h0 : numValues [[("page", "1"), ("ad", "a"), ("spend", "10")],
          [("page", "1"), ("ad", "a"), ("spend", "20")],
          [("page", "2"), ("ad", "b"), ("spend", "")]] ("spend")
          = [((10 : ℕ) : ℚ), ((20 : ℕ) : ℚ)] := rfl
      rw [h0]; norm_num
    have hmean : round4 (meanQ [(10 : ℚ), 20]) = 15 := by
      have h1 : meanQ [(10 : ℚ), 20] = 15 := by rw [meanQ]; norm_num
      rw [h1, round4]; norm_num [rndHEInt]
    have hsort : List.insertionSort (· ≤ ·) [(10 : ℚ), 20] = [10, 20] := by
      simp only [List.insertionSort, List.orderedInsert]
      rw [if_pos (by norm_num : (10 : ℚ) ≤ 20)]
    have hmed : round4 (medianQ [(10 : ℚ), 20]) = 15 := by
      have h1 : medianQ [(10 : ℚ), 20] = 15 := by
        rw [medianQ, hsort]; norm_num
      rw [h1, round4]; norm_num [rndHEInt]
    have hstd : stdev4 [(10 : ℚ), 20] = 70711 / 10 ^ 4 := by
      have hsvar : svarQ [(10 : ℚ), 20] = 50 := by norm_num [svarQ, meanQ]
      have hV : svarQ [(10 : ℚ), 20] * 10 ^ 8 = ((5000000000 : ℕ) : ℚ) := by
        rw [hsvar]; norm_num
      have hrs : rsqrtHE ((5000000000 : ℕ) : ℚ) = 70711 := by
        have ht : Int.toNat 5000000000 = 5000000000 := rfl
        have hsq : Nat.sqrt 5000000000 = 70710 := by norm_num
        norm_num [rsqrtHE, ht, hsq]
      rw [stdev4, hV, hrs]
      norm_num
    have hbun : numBundle [[("page", "1"), ("ad", "a"), ("spend", "10")],
        [("page", "1"), ("ad", "a"), ("spend", "20")],
        [("page", "2"), ("ad", "b"), ("spend", "")]] ("spend")
        = ⟨2, some 15, some 15, some 10, some 20, some (70711 / 10 ^ 4)⟩ := by
      simp only [numBundle, hv10]
      rw [hmean, hmed, hstd]
      norm_num [min_def, max_def]
    have hlookup : (compute_numeric_stats
        [[("page", "1"), ("ad", "a"), ("spend", "10")],
         [("page", "1"), ("ad", "a"), ("spend", "20")],
         [("page", "2"), ("ad", "b"), ("spend", "")]] ["spend"]).lookup ("spend")
        = some (numBundle [[("page", "1"), ("ad", "a"), ("spend", "10")],
            [("page", "1"), ("ad", "a"), ("spend", "20")],
            [("page", "2"), ("ad", "b"), ("spend", "")]] ("spend")) := rfl
    rw [hlookup, hbun]


/-- Witness for C2 at the Scenario A table, hypotheses discharged by
computation. -/
theorem claim_C2_witness :
    ((("spend" : String) ∈ ["spend"]) ∧
      numValues [[("page", "1"), ("ad", "a"), ("spend", "10")],
        [("page", "1"), ("ad", "a"), ("spend", "20")],
        [("page", "2"), ("ad", "b"), ("spend", "")]] ("spend") ≠ []) ∧
    (∃ b : NumBundle,
      (compute_numeric_stats [[("page", "1"), ("ad", "a"), ("spend", "10")],
        [("page", "1"), ("ad", "a"), ("spend", "20")],
        [("page", "2"), ("ad", "b"), ("spend", "")]] ["spend"]).lookup ("spend") = some b ∧
      b.count = (numValues [[("page", "1"), ("ad", "a"), ("spend", "10")],
        [("page", "1"), ("ad", "a"), ("spend", "20")],
        [("page", "2"), ("ad", "b"), ("spend", "")]] ("spend")).length ∧
      (∃ mv, b.mean = some mv ∧ (∃ z : ℤ, mv = (z : ℚ) / 10 ^ 4) ∧
        |mv - (numValues [[("page", "1"), ("ad", "a"), ("spend", "10")],
        [("page", "1"), ("ad", "a"), ("spend", "20")],
        [("page", "2"), ("ad", "b"), ("spend", "")]] ("spend")).sum / ((numValues [[("page", "1"), ("ad", "a"), ("spend", "10")],
        [("page", "1"), ("ad", "a"), ("spend", "20")],
        [("page", "2"), ("ad", "b"), ("spend", "")]] ("spend")).length : ℚ)|
          ≤ 1 / 20000) ∧
      (∃ (md : ℚ) (s : List ℚ), b.median = some md ∧ s.Perm (numValues [[("page", "1"), ("ad", "a"), ("spend", "10")],
        [("page", "1"), ("ad", "a"), ("spend", "20")],
        [("page", "2"), ("ad", "b"), ("spend", "")]] ("spend")) ∧
        s.Sorted (· ≤ ·) ∧ (∃ z : ℤ, md = (z : ℚ) / 10 ^ 4) ∧
        |md - (if s.length % 2 = 1 then s.getD (s.length / 2) 0
               else (s.getD (s.length / 2 - 1) 0 + s.getD (s.length / 2) 0) / 2)|
          ≤ 1 / 20000) ∧
      (∃ mn, b.min = some mn ∧ mn ∈ numValues [[("page", "1"), ("ad", "a"), ("spend", "10")],
        [("page", "1"), ("ad", "a"), ("spend", "20")],
        [("page", "2"), ("ad", "b"), ("spend", "")]] ("spend") ∧
        ∀ x ∈ numValues [[("page", "1"), ("ad", "a"), ("spend", "10")],
        [("page", "1"), ("ad", "a"), ("spend", "20")],
        [("page", "2"), ("ad", "b"), ("spend", "")]] ("spend"), mn ≤ x) ∧
      (∃ mx, b.max = some mx ∧ mx ∈ numValues [[("page", "1"), ("ad", "a"), ("spend", "10")],
        [("page", "1"), ("ad", "a"), ("spend", "20")],
        [("page", "2"), ("ad", "b"), ("spend", "")]] ("spend") ∧
        ∀ x ∈ numValues [[("page", "1"), ("ad", "a"), ("spend", "10")],
        [("page", "1"), ("ad", "a"), ("spend", "20")],
        [("page", "2"), ("ad", "b"), ("spend", "")]] ("spend"), x ≤ mx) ∧
      ((numValues [[("page", "1"), ("ad", "a"), ("spend", "10")],
        [("page", "1"), ("ad", "a"), ("spend", "20")],
        [("page", "2"), ("ad", "b"), ("spend", "")]] ("spend")).length = 1 → b.std_dev = some 0) ∧
      (1 < (numValues [[("page", "1"), ("ad", "a"), ("spend", "10")],
        [("page", "1"), ("ad", "a"), ("spend", "20")],
        [("page", "2"), ("ad", "b"), ("spend", "")]] ("spend")).length →
        ∃ sd, b.std_dev = some sd ∧
          |((sd : ℚ) : ℝ) - Real.sqrt ((svarQ (numValues [[("page", "1"), ("ad", "a"), ("spend", "10")],
        [("page", "1"), ("ad", "a"), ("spend", "20")],
        [("page", "2"), ("ad", "b"), ("spend", "")]] ("spend")) : ℚ) : ℝ)|
            ≤ 1 / 20000 ∧
          svarQ (numValues [[("page", "1"), ("ad", "a"), ("spend", "10")],
        [("page", "1"), ("ad", "a"), ("spend", "20")],
        [("page", "2"), ("ad", "b"), ("spend", "")]] ("spend")) =
            ((numValues [[("page", "1"), ("ad", "a"), ("spend", "10")],
        [("page", "1"), ("ad", "a"), ("spend", "20")],
        [("page", "2"), ("ad", "b"), ("spend", "")]] ("spend")).map (fun x =>
              (x - (numValues [[("page", "1"), ("ad", "a"), ("spend", "10")],
        [("page", "1"), ("ad", "a"), ("spend", "20")],
        [("page", "2"), ("ad", "b"), ("spend", "")]] ("spend")).sum / ((numValues [[("page", "1"), ("ad", "a"), ("spend", "10")],
        [("page", "1"), ("ad", "a"), ("spend", "20")],
        [("page", "2"), ("ad", "b"), ("spend", "")]] ("spend")).length : ℚ)) ^ 2)).sum
              / (((numValues [[("page", "1"), ("ad", "a"), ("spend", "10")],
        [("page", "1"), ("ad", "a"), ("spend", "20")],
        [("page", "2"), ("ad", "b"), ("spend", "")]] ("spend")).length : ℚ) - 1)) ∧
      (compute_numeric_stats
          [[("page", "1"), ("ad", "a"), ("spend", "10")],
           [("page", "1"), ("ad", "a"), ("spend", "20")],
           [("page", "2"), ("ad", "b"), ("spend", "")]] ["spend"]).lookup ("spend")
        = some ⟨2, some 15, some 15, some 10, some 20, some (70711 / 10 ^ 4)⟩) :=
  ⟨⟨by decide, by decide⟩,
   claim_C2 [[("page", "1"), ("ad", "a"), ("spend", "10")],
        [("page", "1"), ("ad", "a"), ("spend", "20")],
        [("page", "2"), ("ad", "b"), ("spend", "")]]
     ["spend"] ("spend") (by decide) (by decide)⟩
